import Mathlib

/-!
Verification of the BlockDAG core framework (`core/blockdag/blockdag.go`).

The framework is shallowly embedded: the Go `BlockDAG` struct becomes a Lean
structure, the `blocks` hash map becomes an association list (Go map iteration
order is only ever observed through the insertion-ordered `dag.HashSet`
companion lists, so the embedding fixes insertion order), and machine `uint`
arithmetic is `Nat` with an explicit `% 2^64` where wraparound matters.

Two groups of definitions are not taken from `blockdag.go` itself because
their Go sources are not part of the sources at hand:
* `Block` (fields and getters) and the `dag.HashSet` operations are modelled
  from the spec's data-model section (insertion-ordered hash set, getter-only
  block record);
* `dag.GraphState.IsExcellent` and the DAG-algorithm strategy
  (`bd.instance`) are modelled from the spec: `IsExcellent` is the
  lexicographic strict-domination test, and the strategy is an abstract
  parameter (`instAdd` for `instance.AddBlock`, `isOnMain` for
  `instance.IsOnMainChain`, `mainTip` for `instance.GetMainChainTip`),
  since the framework only forwards to it.
-/

namespace QDag


/-- Block identifiers: fixed-width hashes with byte-wise decidable equality,
modelled as naturals. -/
abbrev Hash := Nat

/-- `Block` (modelled from the spec's data model, §3/§4.3): id is the insertion
counter, parents/children are insertion-ordered hash sets, layer/order/height
and the main-parent reference as described.  The Go `HashSet` pairs each hash
with a payload pointer into the framework's block map; the embedding stores
the hashes and performs the lookup in the map, which is observationally the
same. -/
structure Block where
  id : Nat
  hash : Hash
  parents : List Hash
  children : List Hash
  weight : Nat
  layer : Nat
  order : Nat
  height : Nat
  mainParent : Option Hash
deriving DecidableEq

/-- `IBlockData`: the externally supplied block-like input of `AddBlock`
(hash, declared parent hashes, unix-seconds timestamp). -/
structure BlockData where
  hash : Hash
  parents : List Hash
  timestamp : Int
deriving DecidableEq

/-- The `BlockDAG` framework aggregate (`blockdag.go`).  The Go
`map[hash.Hash]IBlock` is embedded as an association list (new blocks are
appended at the end, so list position equals insertion id); `instance` is not
a field but an abstract parameter of the operations that dispatch to it. -/
structure BlockDAG where
  genesis : Hash
  blocks : List (Hash × Block)
  blockTotal : Nat
  tips : List Hash
  order : List (Nat × Hash)
  lastTime : Int
deriving DecidableEq

/-- Insertion-ordered hash-set `Add`: append if absent (modelled from the
spec's `HashSet`, §4.1). -/
def hsAdd (s : List Hash) (h : Hash) : List Hash :=
  if h ∈ s then s else s ++ [h]

/-- Lookup in the block map. -/
def mlookup : List (Hash × Block) → Hash → Option Block
  | [], _ => none
  | (k, v) :: rest, h => if h = k then some v else mlookup rest h

/-- In-place value replacement in the block map (used when a parent's
children set grows: the Go code mutates the mapped block through its
pointer). -/
def mupdate : List (Hash × Block) → Hash → Block → List (Hash × Block)
  | [], _, _ => []
  | (k, v) :: rest, h, blk => if h = k then (k, blk) :: rest else (k, v) :: mupdate rest h blk

/-- `GetBlock`: acquire one block by hash; unknown hashes give `none`. -/
def getBlock (bd : BlockDAG) (h : Hash) : Option Block :=
  mlookup bd.blocks h

/-- `HasBlock`: is there a block in the DAG? -/
def hasBlock (bd : BlockDAG) (h : Hash) : Bool :=
  (getBlock bd h).isSome

/-- `HasBlocks`: are all the given hashes in the DAG? -/
def hasBlocks (bd : BlockDAG) (hs : List Hash) : Bool :=
  hs.all (fun h => hasBlock bd h)

/-- `GetBlockTotal`. -/
def getBlockTotal (bd : BlockDAG) : Nat :=
  bd.blockTotal

/-- `IsDAG`: the reserved validity hook; the source always returns true. -/
def isDAG (_bd : BlockDAG) (_b : BlockData) : Bool :=
  true

/-- Does the block mapped at `h` currently have children?  (Go reads this
through the pointer stored beside the tip hash; an absent entry would be a
nil-pointer fault and is unreachable from reachable states.) -/
def hasChildrenIn (m : List (Hash × Block)) (h : Hash) : Bool :=
  match mlookup m h with
  | some blk => !blk.children.isEmpty
  | none => false

/-- `updateTips`: remove every current tip that now has a child, then insert
the new block.  (The nil-tips branch of the Go code coincides with the empty
list.) -/
def updateTips (bd : BlockDAG) (b : Block) : BlockDAG :=
  if bd.tips.isEmpty then { bd with tips := [b.hash] }
  else { bd with tips := bd.tips.filter (fun k => !(hasChildrenIn bd.blocks k)) ++ [b.hash] }

/-- Accumulator of the parent-processing loop of `AddBlock`. -/
structure ParentAcc where
  m : List (Hash × Block)
  bparents : List Hash
  mainParent : Option Hash
  maxLayer : Nat
deriving DecidableEq

/-- One iteration of the `for k, h := range parents` loop of `AddBlock`:
pair the parent into the new block's parent set, add the new block to the
parent's children, record the first parent as main parent, and track the
maximal parent layer.  (A parent hash missing from the map would be a
nil-pointer fault in Go; `HasBlocks` was checked, so it is unreachable.) -/
def processParent (newHash : Hash) (acc : ParentAcc) (kh : Nat × Hash) : ParentAcc :=
  match mlookup acc.m kh.2 with
  | none => acc
  | some parent =>
    { m := mupdate acc.m kh.2 { parent with children := hsAdd parent.children newHash }
      bparents := hsAdd acc.bparents kh.2
      mainParent := if kh.1 = 0 then some parent.hash else acc.mainParent
      maxLayer := if acc.maxLayer = 0 ∨ acc.maxLayer < parent.layer then parent.layer else acc.maxLayer }

/-- The tail of a successful `AddBlock`: insert the block into the map, set
genesis on the first block, bump `blockTotal`, refresh the tips, advance
`lastTime` to the block's timestamp if later, and dispatch to the strategy's
`AddBlock`. -/
def finishAdd (instAdd : Block → Option (List Hash)) (bd : BlockDAG)
    (m : List (Hash × Block)) (blk : Block) (ts : Int) : BlockDAG × Option (List Hash) :=
  let m' := m ++ [(blk.hash, blk)]
  let gen := if bd.blockTotal = 0 then blk.hash else bd.genesis
  let bd1 : BlockDAG :=
    { genesis := gen, blocks := m', blockTotal := bd.blockTotal + 1,
      tips := bd.tips, order := bd.order, lastTime := bd.lastTime }
  let bd2 := updateTips bd1 blk
  let bd3 := { bd2 with lastTime := if bd2.lastTime < ts then ts else bd2.lastTime }
  (bd3, instAdd blk)

/-- `AddBlock`: the entry that updates the block DAG.  `none` input models
the nil `IBlockData`; the `none` result models the nil `*list.List`.
`instAdd` stands for the bound strategy's `AddBlock` (the framework merely
returns its result; per the spec, strategies do not mutate the framework's
indices). -/
def addBlock (instAdd : Block → Option (List Hash)) (bd : BlockDAG)
    (data : Option BlockData) : BlockDAG × Option (List Hash) :=
  match data with
  | none => (bd, none)
  | some b =>
    if hasBlock bd b.hash then (bd, none)
    else if 0 < bd.blockTotal ∧ b.parents.isEmpty then (bd, none)
    else if 0 < bd.blockTotal ∧ ¬(hasBlocks bd b.parents = true) then (bd, none)
    else if !(isDAG bd b) then (bd, none)
    else
      let base : Block :=
        { id := bd.blockTotal, hash := b.hash, parents := [], children := [],
          weight := 1, layer := 0, order := 0, height := 0, mainParent := none }
      if 0 < bd.blockTotal then
        let acc := b.parents.enum.foldl (processParent b.hash)
          { m := bd.blocks, bparents := [], mainParent := none, maxLayer := 0 }
        let blk := { base with
          parents := acc.bparents, mainParent := acc.mainParent, layer := acc.maxLayer + 1 }
        finishAdd instAdd bd acc.m blk b.timestamp
      else
        finishAdd instAdd bd bd.blocks base b.timestamp

/-- The state reached from `bd` after a sequence of `AddBlock` calls. -/
def runAdds (instAdd : Block → Option (List Hash)) (bd : BlockDAG)
    (inputs : List (Option BlockData)) : BlockDAG :=
  inputs.foldl (fun s d => (addBlock instAdd s d).1) bd

/-- The freshly initialized framework (`Init`): empty map, zero total, the
genesis hash is the zero value, `lastTime` is the wall-clock seed `t0`. -/
def initDAG (t0 : Int) : BlockDAG :=
  { genesis := 0, blocks := [], blockTotal := 0, tips := [], order := [], lastTime := t0 }

/-- The structural rejection conditions of `AddBlock`, exactly as evaluated
by the source: nil input, duplicate hash, or (on a non-empty DAG) an empty
parent list or a parent that is not present. -/
def rejectedInput (bd : BlockDAG) (data : Option BlockData) : Bool :=
  match data with
  | none => true
  | some b =>
    hasBlock bd b.hash ||
      (decide (0 < bd.blockTotal) && (b.parents.isEmpty || !hasBlocks bd b.parents))

/-- Concrete input data used by several fixtures: a genesis-like block. -/
def gData : BlockData := { hash := 1, parents := [], timestamp := 0 }

/-- A strategy whose `AddBlock` always returns the nil list (the framework
forwards it verbatim; any other choice works the same way). -/
def instNone : Block → Option (List Hash) := fun _ => none

/-- The one-block fixture: genesis `gData` added to a fresh DAG. -/
def st1 : BlockDAG := runAdds instNone (initDAG 0) [some gData]

/-- Counterexample for C8: on an empty DAG the `blockTotal > 0` guard skips
the parent checks entirely, so adding a block whose declared parent list is
non-empty (parent hash 3 is nowhere in the DAG) succeeds and becomes genesis
instead of failing. -/
def xData : BlockData := { hash := 7, parents := [3], timestamp := 0 }

/-- `GetLayer`: the source reads `bd.GetBlock(h).GetLayer()` with no nil
check, so an unknown hash is a nil dereference; the fault is modelled as
`none`, a known block's layer as `some`. -/
def getLayer (bd : BlockDAG) (h : Hash) : Option Nat :=
  (getBlock bd h).map Block.layer

/-- 64-bit unsigned subtraction: `a - b` computed modulo `2^64`, as Go's
`uint` arithmetic does on the heights in `GetConfirmations`. -/
def u64sub (a b : Nat) : Nat :=
  (a + (2 ^ 64 - b % 2 ^ 64)) % 2 ^ 64

/-- The forward BFS loop of `GetConfirmations`: dequeue a block; a
main-chain block answers `1 + mainHeight - height`, a childless block
answers 0 immediately (aborting the whole search), otherwise its children
are enqueued.  `fuel` only bounds the recursion; the source loop always
terminates because the DAG is finite and acyclic, and on exhaustion the
model returns the source's trailing `return 0`.  (A child hash missing from
the map would be a nil dereference in Go; children of reachable blocks are
always present.) -/
def confLoop (isOnMain : Hash → Bool) (m : List (Hash × Block)) (mainH : Nat) :
    Nat → List Hash → Nat
  | 0, _ => 0
  | _ + 1, [] => 0
  | fuel + 1, hh :: rest =>
    match mlookup m hh with
    | none => 0
    | some cur =>
      if isOnMain cur.hash then u64sub (1 + mainH) cur.height
      else if cur.children.isEmpty then 0
      else confLoop isOnMain m mainH fuel (rest ++ cur.children)

/-- Fuel for `confLoop`: enough for every child-path of the finite DAG. -/
def confFuel (bd : BlockDAG) : Nat :=
  2 ^ bd.blockTotal * (bd.blockTotal + 1)

/-- `GetConfirmations`.  `isOnMain` stands for the strategy's
`IsOnMainChain` and `mainTip` for its `GetMainChainTip` (the framework
dispatches both to `bd.instance`). -/
def getConfirmations (isOnMain : Hash → Bool) (mainTip : Block)
    (bd : BlockDAG) (h : Hash) : Nat :=
  match getBlock bd h with
  | none => 0
  | some block =>
    if isOnMain h then u64sub mainTip.height block.height
    else if !block.children.isEmpty then
      confLoop isOnMain bd.blocks mainTip.height (confFuel bd) [h]
    else 0

/-- Layer read through the map (0 for an absent entry, which never happens
for the parent hashes this is applied to). -/
def layerOfD (m : List (Hash × Block)) (h : Hash) : Nat :=
  ((mlookup m h).map Block.layer).getD 0

/-- The maximum parent layer as the `AddBlock` loop accumulates it. -/
def maxLayerIn (m : List (Hash × Block)) (ps : List Hash) : Nat :=
  ps.foldl (fun a p => max a (layerOfD m p)) 0

/-- The child-update applied to each parent of the new block. -/
def withChild (newH : Hash) (b : Block) : Block :=
  { b with children := hsAdd b.children newH }

/-- `c` is a direct child of `a` in the block map. -/
def ChildEdge (m : List (Hash × Block)) (a c : Hash) : Prop :=
  ∃ b, mlookup m a = some b ∧ c ∈ b.children

/-- `c` is a strict descendant of `a` (reachable through child edges). -/
def ChildPath (m : List (Hash × Block)) : Hash → Hash → Prop :=
  Relation.TransGen (ChildEdge m)

/-- The structural invariant of every reachable `BlockDAG` state: counts,
key/hash agreement, closure of parent and child references, bidirectional
edges, genesis characterization, layer recurrence, id monotonicity along
edges, tip correctness, and reachability of a tip from every block. -/
structure Inv (bd : BlockDAG) : Prop where
  total_len : bd.blockTotal = bd.blocks.length
  hash_eq : ∀ h b, mlookup bd.blocks h = some b → b.hash = h
  parents_some : ∀ h b p, mlookup bd.blocks h = some b → p ∈ b.parents →
    (mlookup bd.blocks p).isSome = true
  children_some : ∀ h b c, mlookup bd.blocks h = some b → c ∈ b.children →
    (mlookup bd.blocks c).isSome = true
  child_to_parent : ∀ h b c cb, mlookup bd.blocks h = some b → c ∈ b.children →
    mlookup bd.blocks c = some cb → h ∈ cb.parents
  parent_to_child : ∀ h b p pb, mlookup bd.blocks h = some b → p ∈ b.parents →
    mlookup bd.blocks p = some pb → h ∈ pb.children
  genesis_some : bd.blockTotal ≠ 0 → (mlookup bd.blocks bd.genesis).isSome = true
  parents_empty_iff : ∀ h b, mlookup bd.blocks h = some b → (b.parents = [] ↔ h = bd.genesis)
  layer_rec : ∀ h b, mlookup bd.blocks h = some b → b.parents ≠ [] →
    b.layer = maxLayerIn bd.blocks b.parents + 1
  layer_genesis : ∀ b, mlookup bd.blocks bd.genesis = some b → b.layer = 0
  parent_id_lt : ∀ h b p pb, mlookup bd.blocks h = some b → p ∈ b.parents →
    mlookup bd.blocks p = some pb → pb.id < b.id
  id_lt_total : ∀ h b, mlookup bd.blocks h = some b → b.id < bd.blockTotal
  layer_le_id : ∀ h b, mlookup bd.blocks h = some b → b.layer ≤ b.id
  tips_iff : ∀ h, h ∈ bd.tips ↔ ∃ b, mlookup bd.blocks h = some b ∧ b.children = []
  tip_reach : ∀ h b, mlookup bd.blocks h = some b →
    ∃ t, t ∈ bd.tips ∧ (h = t ∨ ChildPath bd.blocks h t)

/-- The state component of `finishAdd` (independent of the strategy). -/
def nextState (bd : BlockDAG) (m : List (Hash × Block)) (blk : Block) (ts : Int) : BlockDAG :=
  (finishAdd (fun _ => none) bd m blk ts).1

/-- The accumulator produced by the parent-processing loop of `AddBlock`. -/
def succAcc (bd : BlockDAG) (b : BlockData) : ParentAcc :=
  b.parents.enum.foldl (processParent b.hash)
    { m := bd.blocks, bparents := [], mainParent := none, maxLayer := 0 }

/-- The block record built by a successful `AddBlock` on a non-empty DAG. -/
def succBlk (bd : BlockDAG) (b : BlockData) : Block :=
  { id := bd.blockTotal, hash := b.hash, parents := (succAcc bd b).bparents, children := [],
    weight := 1, layer := (succAcc bd b).maxLayer + 1, order := 0, height := 0,
    mainParent := (succAcc bd b).mainParent }

/-- The block record built by a successful `AddBlock` on an empty DAG. -/
def baseBlk (bd : BlockDAG) (b : BlockData) : Block :=
  { id := bd.blockTotal, hash := b.hash, parents := [], children := [],
    weight := 1, layer := 0, order := 0, height := 0, mainParent := none }

/-- Data for the three-block chain fixture: genesis 1, then 2 with parent 1. -/
def aData : BlockData := { hash := 2, parents := [1], timestamp := 0 }

/-- The two-block chain fixture. -/
def st2 : BlockDAG := runAdds instNone (initDAG 0) [some gData, some aData]

/-- `dag.GraphState` (modelled from the spec, §4.2): tip set, maximum tip
layer, total block count, main-chain height. -/
structure GraphState where
  tips : List Hash
  layer : Nat
  total : Nat
  mainHeight : Nat
deriving DecidableEq

/-- Modelled from the spec: `GraphState.IsExcellent(other)` is true when the
holder strictly dominates `other` — lexicographic preference on
(mainHeight, total, layer, number of tips); on full ties (equal states) the
domination is strict, so the result is false. -/
def GraphState.IsExcellent (a b : GraphState) : Bool :=
  if a.mainHeight > b.mainHeight then true
  else if a.mainHeight < b.mainHeight then false
  else if a.total > b.total then true
  else if a.total < b.total then false
  else if a.layer > b.layer then true
  else if a.layer < b.layer then false
  else if a.tips.length > b.tips.length then true
  else false

/-- `GetGraphState`: the framework's own summary, from the current tips, the
maximal tip layer, `blockTotal`, and the main-chain tip's height (`mainTip`
stands for the strategy's `GetMainChainTip`). -/
def getGraphState (mainTip : Block) (bd : BlockDAG) : GraphState :=
  if !bd.tips.isEmpty then
    { tips := bd.tips,
      layer := bd.tips.foldl
        (fun a k =>
          match mlookup bd.blocks k with
          | some tb => if tb.layer > a then tb.layer else a
          | none => a) 0,
      total := bd.blockTotal, mainHeight := mainTip.height }
  else
    { tips := [], layer := 0, total := bd.blockTotal, mainHeight := mainTip.height }

def locateLoop (m : List (Hash × Block)) (gsTips : List Hash) :
    Nat → List Hash → List Hash → List Hash
  | 0, _, fs => fs
  | _ + 1, [], fs => fs
  | fuel + 1, hh :: rest, fs =>
    if hh ∈ gsTips then locateLoop m gsTips fuel rest fs
    else
      match mlookup m hh with
      | none => locateLoop m gsTips fuel rest fs
      | some cur =>
        let needRec := if !cur.children.isEmpty then
            cur.children.all (fun k => !(gsTips.contains k) && fs.contains k)
          else true
        if needRec then
          locateLoop m gsTips fuel
            (rest ++ cur.parents.filter (fun k => !((hsAdd fs hh).contains k)))
            (hsAdd fs hh)
        else locateLoop m gsTips fuel rest fs

/-- Fuel for `locateLoop`, ample for the fixtures below. -/
def locateFuel (bd : BlockDAG) : Nat :=
  (bd.blockTotal + 1) * (bd.blockTotal + 1) + bd.tips.length + 1

/-- The `BlockSlice` comparator (modelled from the spec, §4.3): ascending
`order`, with the insertion id as tiebreaker. -/
def blockLe (a b : Block) : Prop :=
  a.order < b.order ∨ (a.order = b.order ∧ a.id ≤ b.id)

instance : DecidableRel blockLe := fun a b => by
  unfold blockLe; exact inferInstance

instance : IsTotal Block blockLe :=
  ⟨fun a b => by
    unfold blockLe
    rcases Nat.lt_trichotomy a.order b.order with h | h | h
    · exact Or.inl (Or.inl h)
    · rcases Nat.le_total a.id b.id with h2 | h2
      · exact Or.inl (Or.inr ⟨h, h2⟩)
      · exact Or.inr (Or.inr ⟨h.symm, h2⟩)
    · exact Or.inr (Or.inl h)⟩

instance : IsTrans Block blockLe :=
  ⟨fun a b c hab hbc => by
    unfold blockLe at *
    rcases hab with h1 | ⟨h1, h1'⟩ <;> rcases hbc with h2 | ⟨h2, h2'⟩
    · exact Or.inl (Nat.lt_trans h1 h2)
    · exact Or.inl (h2 ▸ h1)
    · exact Or.inl (h1 ▸ h2)
    · exact Or.inr ⟨h1.trans h2, Nat.le_trans h1' h2'⟩⟩

/-- The admitted blocks of `LocateBlocks` (`fsSlice` in the source): the BFS
is seeded with every tip both enqueued and admitted, and the admitted hashes
are paired back with their blocks. -/
def locateSlice (bd : BlockDAG) (gs : GraphState) : List Block :=
  (locateLoop bd.blocks gs.tips (locateFuel bd) bd.tips bd.tips).filterMap
    (fun h => mlookup bd.blocks h)

/-- The admitted blocks after the source's conditional `sort.Sort` (modelled
by a deterministic sort with the same `BlockSlice` comparator). -/
def locateSorted (bd : BlockDAG) (gs : GraphState) : List Block :=
  if (locateSlice bd gs).length ≥ 2 then List.insertionSort blockLe (locateSlice bd gs)
  else locateSlice bd gs

/-- `LocateBlocks`: `none` models the nil early return when the peer's state
strictly dominates ours; otherwise the admitted set is sorted and truncated
to `maxHashes` (the Go `int(maxHashes)` cast is modelled as the `Nat`
bound). -/
def locateBlocks (mainTip : Block) (bd : BlockDAG) (gs : GraphState)
    (maxHashes : Nat) : Option (List Hash) :=
  if gs.IsExcellent (getGraphState mainTip bd) then none
  else some (((locateSorted bd gs).take maxHashes).map Block.hash)

/-- Counterexample for C6: with a peer state literally equal to our own
(one-block DAG), the framework's state does not strictly dominate the
peer's, yet `LocateBlocks` does not return an empty/null result — it returns
the tip itself. -/
def gBlk : Block :=
  { id := 0, hash := 1, parents := [], children := [], weight := 1, layer := 0,
    order := 0, height := 0, mainParent := none }

/-- The two-tips fixture: genesis 1, then 2 and 3 both with parent 1. -/
def bData : BlockData := { hash := 3, parents := [1], timestamp := 0 }

/-- The two-tips fixture state. -/
def st3 : BlockDAG := runAdds instNone (initDAG 0) [some gData, some aData, some bData]

/-- Modelled from the spec: the claimed `GetConfirmations` BFS — "BFS forward
through children until a main-chain block m is reached; return
`1 + mainHeight − height(m)`"; a childless block is merely exhausted, not an
early answer, and 0 is returned only when no main-chain descendant exists. -/
def claimedLoop (isOnMain : Hash → Bool) (m : List (Hash × Block)) (mainH : Nat) :
    Nat → List Hash → Nat
  | 0, _ => 0
  | _ + 1, [] => 0
  | fuel + 1, hh :: rest =>
    match mlookup m hh with
    | none => claimedLoop isOnMain m mainH fuel rest
    | some cur =>
      if isOnMain cur.hash then u64sub (1 + mainH) cur.height
      else claimedLoop isOnMain m mainH fuel (rest ++ cur.children)

/-- Modelled from the spec: `GetConfirmations` as the claim describes it
(same main-chain and no-children cases as the source, but with the claimed
BFS that only answers 0 when the whole future is exhausted). -/
def claimedConfirmations (isOnMain : Hash → Bool) (mainTip : Block)
    (bd : BlockDAG) (h : Hash) : Nat :=
  match getBlock bd h with
  | none => 0
  | some block =>
    if isOnMain h then u64sub mainTip.height block.height
    else if !block.children.isEmpty then
      claimedLoop isOnMain bd.blocks mainTip.height (confFuel bd) [h]
    else 0

/-- The `GetConfirmations` fixture: G(1) → H(2) → {A(4), M(5)}, P(3) with
G → P, M's parents {H, P}; the main chain is G, P, M. -/
def a4Data : BlockData := { hash := 4, parents := [2], timestamp := 0 }

/-- M(5), child of H(2) and P(3). -/
def mData : BlockData := { hash := 5, parents := [2, 3], timestamp := 0 }

/-- The fixture state for `GetConfirmations`. -/
def stC5 : BlockDAG :=
  runAdds instNone (initDAG 0) [some gData, some aData, some bData, some a4Data, some mData]

/-- The fixture main chain: G(1), P(3), M(5). -/
def isOnMainC5 : Hash → Bool := fun h => h == 1 || h == 3 || h == 5

/-- The fixture main-chain tip: the stored block M(5). -/
def mtC5 : Block :=
  { id := 4, hash := 5, parents := [2, 3], children := [], weight := 1, layer := 2,
    order := 0, height := 0, mainParent := some 2 }

/-- The stored block H(2) of the fixture (children A(4), M(5)). -/
def h2Blk : Block :=
  { id := 1, hash := 2, parents := [1], children := [4, 5], weight := 1, layer := 1,
    order := 0, height := 0, mainParent := some 1 }

/-- `GetFutureSet`: depth-first collection of the descendants of a block
into the accumulator `fs` (the block itself excluded), guarded by `fs`
against re-traversal.  `fuel` bounds the recursion depth; each recursive
call strictly grows `fs`, so `blockTotal + 1` fuel (as `getFutureSet`
passes) never runs out.  (A child hash absent from the map would be a nil
dereference in Go; the model records the hash and moves on.) -/
def getFutureSetAux (m : List (Hash × Block)) : Nat → List Hash → Block → List Hash
  | 0, fs, _ => fs
  | fuel + 1, fs, b =>
    b.children.foldl
      (fun fs k =>
        if k ∈ fs then fs
        else
          match mlookup m k with
          | some cb => getFutureSetAux m fuel (fs ++ [k]) cb
          | none => fs ++ [k]) fs

/-- `GetFutureSet` as `GetAnticone` invokes it: from an empty accumulator. -/
def getFutureSet (bd : BlockDAG) (b : Block) : List Hash :=
  getFutureSetAux bd.blocks (bd.blockTotal + 1) [] b

/-- `isVirtualTip`: a node is admissible for the anticone when none of its
children is `b` and every child is already classified (future or anticone). -/
def isVirtualTip (bHash : Hash) (futureSet anticone children : List Hash) : Bool :=
  children.all (fun k =>
    if k = bHash then false
    else if k ∈ futureSet ∨ k ∈ anticone then true
    else false)

/-- The `needRecursion` test of `recAnticone`: children empty, or the
virtual-tip test. -/
def needRecTest (bHash : Hash) (futureSet anticone children : List Hash) : Bool :=
  if children.isEmpty then true
  else isVirtualTip bHash futureSet anticone children

/-- `recAnticone`: walk ancestors from a tip; a visited node is processed
only when `needRecursion` holds, in which case it is added to the anticone
unless it lies in the future set, and the walk recurses into all its
parents.  `fuel` bounds the recursion; parent chains strictly descend in
layer, so the `blockTotal + 1` fuel of `getAnticone` never runs out on a
reachable state. -/
def recAnticone (m : List (Hash × Block)) (bHash : Hash) (futureSet : List Hash) :
    Nat → List Hash → Hash → List Hash
  | 0, anticone, _ => anticone
  | fuel + 1, anticone, h =>
    if h = bHash then anticone
    else
      match mlookup m h with
      | none => anticone
      | some node =>
        if needRecTest bHash futureSet anticone node.children then
          node.parents.foldl
            (fun ac k => recAnticone m bHash futureSet fuel ac k)
            (if h ∈ futureSet then anticone else hsAdd anticone h)
        else anticone

/-- `GetAnticone`: future set of `b`, then the ancestor walk from every tip,
then removal of the `exclude` set if one was passed. -/
def getAnticone (bd : BlockDAG) (b : Block) (exclude : Option (List Hash)) : List Hash :=
  let futureSet := getFutureSetAux bd.blocks (bd.blockTotal + 1) [] b
  let anticone := bd.tips.foldl
    (fun ac k => recAnticone bd.blocks b.hash futureSet (bd.blockTotal + 1) ac k) []
  match exclude with
  | none => anticone
  | some ex => anticone.filter (fun k => !(ex.contains k))

/-- A block that is neither `b` nor one of its ancestors. -/
def GoodNode (m : List (Hash × Block)) (bHash : Hash) (x : Hash) : Prop :=
  (mlookup m x).isSome = true ∧ x ≠ bHash ∧ ¬ChildPath m x bHash

/-- A block in the anticone of `b`: neither `b`, nor an ancestor, nor a
descendant. -/
def AntiNode (m : List (Hash × Block)) (bHash : Hash) (x : Hash) : Prop :=
  GoodNode m bHash x ∧ ¬ChildPath m bHash x

/-- The number of map keys not yet in the accumulator: the DFS termination
measure. -/
def keysNotIn (m : List (Hash × Block)) (fs : List Hash) : Nat :=
  ((m.map Prod.fst).filter (fun x => !(decide (x ∈ fs)))).length

/-- Everything in `R` that was not already in `fs` has all its children in
`R`: the closure property of the DFS result. -/
def DfsClosed (m : List (Hash × Block)) (fs R : List Hash) : Prop :=
  ∀ y ∈ R, y ∈ fs ∨ (∀ c, ChildEdge m y c → c ∈ R)

/-- Insertion id read through the map. -/
def idOfD (m : List (Hash × Block)) (h : Hash) : Nat :=
  ((mlookup m h).map Block.id).getD 0

/-- A call `recAnticone fuel γ x` that actually occurs while computing the
final anticone `A`: it has enough fuel for the parent chain below `x`, its
accumulator is a prefix of `A`, and its result is again a prefix of `A`. -/
def GoodVisit (m : List (Hash × Block)) (bHash : Hash) (F A : List Hash)
    (fuel : Nat) (γ : List Hash) (x : Hash) : Prop :=
  layerOfD m x + 2 ≤ fuel ∧ γ <+: A ∧ recAnticone m bHash F fuel γ x <+: A

/-- The stored non-genesis block 2 of the two-tips fixture. -/
def ablk : Block :=
  { id := 1, hash := 2, parents := [1], children := [], weight := 1, layer := 1,
    order := 0, height := 0, mainParent := some 1 }

/-- Claim C1: `AddBlock` is atomic on rejection — whenever the input is nil,
its hash is already present, or the DAG is non-empty and the declared parent
list is empty or mentions an unknown parent, the call returns the nil list
and leaves every framework field (genesis, blocks, blockTotal, tips, order,
lastTime) unchanged; in particular a duplicate add leaves `blockTotal`
unchanged and returns nil. -/
theorem addBlock_rejected_noop (instAdd : Block → Option (List Hash))
    (bd : BlockDAG) (data : Option BlockData)
    (h : rejectedInput bd data = true) :
    addBlock instAdd bd data = (bd, none) := by
  match data with
  | none => rfl
  | some b =>
    simp only [rejectedInput, Bool.or_eq_true, Bool.and_eq_true, decide_eq_true_eq,
      Bool.not_eq_true'] at h
    unfold addBlock
    rcases h with h1 | ⟨h2, h3⟩
    · simp [h1]
    · rcases h3 with h3 | h3
      · by_cases hb : hasBlock bd b.hash
        · simp [hb]
        · simp [hb, h2, h3]
      · by_cases hb : hasBlock bd b.hash
        · simp [hb]
        · by_cases hp : b.parents.isEmpty
          · simp [hb, h2, hp]
          · simp [hb, h2, hp, h3]

/-- Witness for C1: adding the same genesis block a second time is rejected,
returns nil, and leaves the whole state (in particular `blockTotal = 1`)
unchanged. -/
theorem addBlock_rejected_noop_witness :
    addBlock instNone st1 (some gData) = (st1, none) ∧ st1.blockTotal = 1 := by
  refine ⟨addBlock_rejected_noop instNone st1 (some gData) (by decide), by decide⟩

/-- Claim C8 (counterexample): `AddBlock` of `xData` (declared parents `[3]`)
on the empty DAG does not return nil and does not leave the DAG empty: the
block is accepted, `blockTotal` becomes 1 and `genesis` becomes its hash. -/
theorem addBlock_nonempty_parents_on_empty_dag_succeeds :
    (addBlock instNone (initDAG 0) (some xData)).1.blockTotal = 1 ∧
      (addBlock instNone (initDAG 0) (some xData)).1.genesis = 7 ∧
      ¬((addBlock instNone (initDAG 0) (some xData)).1 = initDAG 0) := by
  refine ⟨by decide, by decide, by decide⟩

/-- Claim C8 (amended): on an empty DAG (`blockTotal = 0`), `AddBlock` of any
non-nil block succeeds and becomes genesis — with empty declared parents as
the claim states, but also with a non-empty declared parent list, which is
ignored: the stored block has an empty parent set, layer 0, id 0, and is the
sole tip. -/
theorem addBlock_on_empty_dag (instAdd : Block → Option (List Hash))
    (t : Int) (b : BlockData) :
    (addBlock instAdd (initDAG t) (some b)).1.blockTotal = 1 ∧
      (addBlock instAdd (initDAG t) (some b)).1.genesis = b.hash ∧
      (addBlock instAdd (initDAG t) (some b)).1.tips = [b.hash] ∧
      mlookup (addBlock instAdd (initDAG t) (some b)).1.blocks b.hash =
        some { id := 0, hash := b.hash, parents := [], children := [],
               weight := 1, layer := 0, order := 0, height := 0, mainParent := none } := by
  simp [addBlock, hasBlock, getBlock, mlookup, initDAG, isDAG, finishAdd, updateTips,
    hasChildrenIn]

/-- Claim C9 (counterexample): for the unknown hash 5, `GetBlock` does
return null and `HasBlock` false, but `GetLayer` does not "return without
error": it dereferences the nil block (modelled: `none`), so the claim's
third conjunct is false. -/
theorem getLayer_unknown_hash_faults :
    getBlock st1 5 = none ∧ hasBlock st1 5 = false ∧
      ¬((getLayer st1 5).isSome = true) := by
  refine ⟨by decide, by decide, by decide⟩

/-- Claim C9 (amended): for every hash `h` not present in `blocks`,
`GetBlock h` returns null and `HasBlock h` returns false, but `GetLayer h`
dereferences the null lookup and faults (modelled as `none`) rather than
returning. -/
theorem queries_on_unknown_hash (bd : BlockDAG) (h : Hash)
    (hu : getBlock bd h = none) :
    hasBlock bd h = false ∧ getLayer bd h = none := by
  constructor
  · simp [hasBlock, hu]
  · simp [getLayer, hu]

/-- Witness for the amended C9 at the unknown hash 5 of the one-block
fixture. -/
theorem queries_on_unknown_hash_witness :
    hasBlock st1 5 = false ∧ getLayer st1 5 = none :=
  queries_on_unknown_hash st1 5 (by decide)

/-- Claim C10: for every hash not present in `blocks`, `GetConfirmations`
returns 0 — the unknown-hash answer coincides with that of a known block
with no main-chain descendants. -/
theorem getConfirmations_unknown_hash (isOnMain : Hash → Bool) (mainTip : Block)
    (bd : BlockDAG) (h : Hash) (hu : getBlock bd h = none) :
    getConfirmations isOnMain mainTip bd h = 0 := by
  simp [getConfirmations, hu]

/-- Witness for C10 at the unknown hash 5 of the one-block fixture. -/
theorem getConfirmations_unknown_hash_witness :
    getConfirmations (fun _ => false)
      { id := 0, hash := 1, parents := [], children := []
        weight := 1, layer := 0, order := 0, height := 0, mainParent := none } st1 5 = 0 :=
  getConfirmations_unknown_hash _ _ st1 5 (by decide)

theorem mem_hsAdd {s : List Hash} {h x : Hash} : x ∈ hsAdd s h ↔ x ∈ s ∨ x = h := by
  unfold hsAdd
  by_cases hm : h ∈ s
  · simp only [if_pos hm]
    constructor
    · exact Or.inl
    · rintro (hx | rfl)
      · exact hx
      · exact hm
  · simp [if_neg hm]

theorem hsAdd_ne_nil {s : List Hash} {h : Hash} : hsAdd s h ≠ [] := by
  unfold hsAdd
  by_cases hm : h ∈ s
  · simp only [if_pos hm]
    intro hc
    rw [hc] at hm
    exact List.not_mem_nil h hm
  · simp [if_neg hm]

theorem hsAdd_self_mem {s : List Hash} {h : Hash} : h ∈ hsAdd s h :=
  mem_hsAdd.mpr (Or.inr rfl)

theorem hsAdd_of_mem {s : List Hash} {h : Hash} (hm : h ∈ s) : hsAdd s h = s := by
  simp [hsAdd, hm]

theorem hsAdd_idem {s : List Hash} {h : Hash} : hsAdd (hsAdd s h) h = hsAdd s h :=
  hsAdd_of_mem hsAdd_self_mem

theorem hsAdd_eq_nil_iff {s : List Hash} {h : Hash} : hsAdd s h = [] ↔ False :=
  ⟨fun hc => hsAdd_ne_nil hc, False.elim⟩

@[simp]
theorem mlookup_nil (h : Hash) : mlookup [] h = none := rfl

@[simp]
theorem mlookup_cons (e : Hash × Block) (rest : List (Hash × Block)) (h : Hash) :
    mlookup (e :: rest) h = if h = e.1 then some e.2 else mlookup rest h := by
  cases e; rfl

@[simp]
theorem mupdate_cons (e : Hash × Block) (rest : List (Hash × Block)) (h : Hash) (blk : Block) :
    mupdate (e :: rest) h blk =
      if h = e.1 then (e.1, blk) :: rest else e :: mupdate rest h blk := by
  cases e; rfl

theorem mlookup_append_some {m₁ m₂ : List (Hash × Block)} {h : Hash} {b : Block}
    (hl : mlookup m₁ h = some b) : mlookup (m₁ ++ m₂) h = some b := by
  induction m₁ with
  | nil => simp [mlookup] at hl
  | cons e rest ih =>
    rw [List.cons_append, mlookup_cons]
    rw [mlookup_cons] at hl
    by_cases he : h = e.1
    · simpa [he] using hl
    · simp only [if_neg he] at hl ⊢
      exact ih hl

theorem mlookup_append_none {m₁ m₂ : List (Hash × Block)} {h : Hash}
    (hl : mlookup m₁ h = none) : mlookup (m₁ ++ m₂) h = mlookup m₂ h := by
  induction m₁ with
  | nil => rfl
  | cons e rest ih =>
    rw [List.cons_append, mlookup_cons]
    rw [mlookup_cons] at hl
    by_cases he : h = e.1
    · simp [he] at hl
    · simp only [if_neg he] at hl ⊢
      exact ih hl

theorem mupdate_of_none {m : List (Hash × Block)} {h : Hash} {blk : Block}
    (hl : mlookup m h = none) : mupdate m h blk = m := by
  induction m with
  | nil => rfl
  | cons e rest ih =>
    rw [mlookup_cons] at hl
    rw [mupdate_cons]
    by_cases he : h = e.1
    · simp [he] at hl
    · simp only [if_neg he] at hl ⊢
      rw [ih hl]

theorem mlookup_mupdate_self {m : List (Hash × Block)} {h : Hash} {b blk : Block}
    (hl : mlookup m h = some b) : mlookup (mupdate m h blk) h = some blk := by
  induction m with
  | nil => simp [mlookup] at hl
  | cons e rest ih =>
    rw [mlookup_cons] at hl
    rw [mupdate_cons]
    by_cases he : h = e.1
    · simp [he]
    · simp only [if_neg he] at hl ⊢
      rw [mlookup_cons, if_neg he]
      exact ih hl

theorem mlookup_mupdate_ne {m : List (Hash × Block)} {h k : Hash} {blk : Block}
    (hk : k ≠ h) : mlookup (mupdate m h blk) k = mlookup m k := by
  induction m with
  | nil => rfl
  | cons e rest ih =>
    rw [mupdate_cons]
    by_cases he : h = e.1
    · rw [if_pos he, mlookup_cons, mlookup_cons]
      have hke : ¬(k = e.1) := fun hc => hk (hc.trans he.symm)
      simp [hke]
    · rw [if_neg he, mlookup_cons, mlookup_cons]
      by_cases hke : k = e.1
      · simp [hke]
      · simp only [if_neg hke]
        exact ih

theorem mupdate_length {m : List (Hash × Block)} {h : Hash} {blk : Block} :
    (mupdate m h blk).length = m.length := by
  induction m with
  | nil => rfl
  | cons e rest ih =>
    rw [mupdate_cons]
    by_cases he : h = e.1
    · simp [he]
    · simp only [if_neg he, List.length_cons]
      rw [ih]

/-- The source's `maxLayer` update step is just `max`. -/
theorem goMax_eq (a l : Nat) : (if a = 0 ∨ a < l then l else a) = max a l := by
  by_cases h0 : a = 0
  · simp [h0]
  · by_cases hl : a < l
    · simp [hl, Nat.max_eq_right (Nat.le_of_lt hl)]
    · simp only [h0, hl, or_self, if_false]
      exact (Nat.max_eq_left (Nat.le_of_not_lt hl)).symm

theorem foldl_max_le {l : List Hash} {f : Hash → Nat} {a B : Nat}
    (ha : a ≤ B) (hf : ∀ x ∈ l, f x ≤ B) :
    l.foldl (fun acc p => max acc (f p)) a ≤ B := by
  induction l generalizing a with
  | nil => exact ha
  | cons x rest ih =>
    refine ih (Nat.max_le.mpr ⟨ha, hf x (List.mem_cons_self x rest)⟩)
      (fun y hy => hf y (List.mem_cons_of_mem x hy))

theorem le_foldl_max_init {l : List Hash} {f : Hash → Nat} {a : Nat} :
    a ≤ l.foldl (fun acc p => max acc (f p)) a := by
  induction l generalizing a with
  | nil => exact Nat.le_refl _
  | cons y rest ih => exact Nat.le_trans (Nat.le_max_left _ _) ih

theorem le_foldl_max {l : List Hash} {f : Hash → Nat} {a : Nat} {x : Hash}
    (hx : x ∈ l) : f x ≤ l.foldl (fun acc p => max acc (f p)) a := by
  induction l generalizing a with
  | nil => cases hx
  | cons y rest ih =>
    rcases List.mem_cons.mp hx with rfl | hx'
    · exact Nat.le_trans (Nat.le_max_right a (f x)) le_foldl_max_init
    · exact ih hx'

theorem foldl_max_congr {l : List Hash} {f g : Hash → Nat} {a : Nat}
    (h : ∀ x ∈ l, f x = g x) :
    l.foldl (fun acc p => max acc (f p)) a = l.foldl (fun acc p => max acc (g p)) a := by
  induction l generalizing a with
  | nil => rfl
  | cons x rest ih =>
    simp only [List.foldl_cons, h x (List.mem_cons_self x rest)]
    exact ih (fun y hy => h y (List.mem_cons_of_mem x hy))

theorem enumFrom_map_snd (n : Nat) (l : List Hash) :
    (List.enumFrom n l).map Prod.snd = l := by
  induction l generalizing n with
  | nil => rfl
  | cons x rest ih => simp [List.enumFrom, ih]

theorem enum_map_snd (l : List Hash) : l.enum.map Prod.snd = l :=
  enumFrom_map_snd 0 l

theorem withChild_idem {newH : Hash} {b : Block} :
    withChild newH (withChild newH b) = withChild newH b := by
  simp [withChild, hsAdd_idem]

/-- Effect of one `processParent` step on the map. -/
theorem processParent_lookup (newH : Hash) (acc : ParentAcc) (e : Nat × Hash) (k : Hash) :
    mlookup (processParent newH acc e).m k =
      if k = e.2 then (mlookup acc.m k).map (withChild newH) else mlookup acc.m k := by
  unfold processParent
  by_cases hk : k = e.2
  · subst hk
    match hl : mlookup acc.m e.2 with
    | none => simp [hl]
    | some parent =>
      simp only [hl, if_pos rfl, Option.map_some]
      exact mlookup_mupdate_self hl
  · match hl : mlookup acc.m e.2 with
    | none => simp [hl, if_neg hk]
    | some parent => simp [hl, mlookup_mupdate_ne hk, if_neg hk]

/-- Effect of the whole parent fold on the map: exactly the parents of the
new block gain it as a child (idempotently for duplicated parent hashes). -/
theorem fold_pp_lookup (newH : Hash) (l : List (Nat × Hash)) (acc : ParentAcc) (k : Hash) :
    mlookup (l.foldl (processParent newH) acc).m k =
      if k ∈ l.map Prod.snd then (mlookup acc.m k).map (withChild newH)
      else mlookup acc.m k := by
  induction l generalizing acc with
  | nil => simp
  | cons e rest ih =>
    rw [List.foldl_cons, ih]
    by_cases hk : k = e.2
    · by_cases hr : k ∈ rest.map Prod.snd
      · rw [if_pos hr, processParent_lookup, if_pos hk, if_pos (by simp [hk])]
        match hl : mlookup acc.m k with
        | none => rfl
        | some b => simp [hl, withChild_idem]
      · rw [if_neg hr, processParent_lookup, if_pos hk, if_pos (by simp [hk])]
    · by_cases hr : k ∈ rest.map Prod.snd
      · rw [if_pos hr, processParent_lookup, if_neg hk, if_pos (by simp [hr])]
      · rw [if_neg hr, processParent_lookup, if_neg hk,
          if_neg (by simp only [List.map_cons, List.mem_cons]; rintro (h | h); exact hk h; exact hr h)]

theorem fold_pp_isSome (newH : Hash) (l : List (Nat × Hash)) (acc : ParentAcc) (k : Hash) :
    (mlookup (l.foldl (processParent newH) acc).m k).isSome = (mlookup acc.m k).isSome := by
  rw [fold_pp_lookup]
  by_cases hk : k ∈ l.map Prod.snd
  · rw [if_pos hk]
    cases mlookup acc.m k <;> rfl
  · rw [if_neg hk]

theorem processParent_length (newH : Hash) (acc : ParentAcc) (e : Nat × Hash) :
    (processParent newH acc e).m.length = acc.m.length := by
  unfold processParent
  match hl : mlookup acc.m e.2 with
  | none => simp [hl]
  | some parent => simp [hl, mupdate_length]

theorem fold_pp_length (newH : Hash) (l : List (Nat × Hash)) (acc : ParentAcc) :
    (l.foldl (processParent newH) acc).m.length = acc.m.length := by
  induction l generalizing acc with
  | nil => rfl
  | cons e rest ih => rw [List.foldl_cons, ih, processParent_length]

theorem processParent_bparents (newH : Hash) (acc : ParentAcc) (e : Nat × Hash)
    (hpres : (mlookup acc.m e.2).isSome) :
    (processParent newH acc e).bparents = hsAdd acc.bparents e.2 := by
  unfold processParent
  match hl : mlookup acc.m e.2 with
  | none => rw [hl] at hpres; simp at hpres
  | some parent => simp [hl]

theorem fold_pp_bparents (newH : Hash) (l : List (Nat × Hash)) (acc : ParentAcc)
    (hpres : ∀ x ∈ l.map Prod.snd, (mlookup acc.m x).isSome) (x : Hash) :
    x ∈ (l.foldl (processParent newH) acc).bparents ↔
      x ∈ acc.bparents ∨ x ∈ l.map Prod.snd := by
  induction l generalizing acc with
  | nil => simp
  | cons e rest ih =>
    rw [List.foldl_cons]
    have hpe : (mlookup acc.m e.2).isSome :=
      hpres e.2 (by simp)
    have hrest : ∀ y ∈ rest.map Prod.snd, (mlookup (processParent newH acc e).m y).isSome := by
      intro y hy
      have : (mlookup (processParent newH acc e).m y).isSome = (mlookup acc.m y).isSome := by
        have := fold_pp_isSome newH [e] acc y
        simpa using this
      rw [this]
      exact hpres y (by simp [hy])
    rw [ih _ hrest, processParent_bparents newH acc e hpe]
    simp [mem_hsAdd]
    tauto

theorem processParent_maxLayer (newH : Hash) (acc : ParentAcc) (e : Nat × Hash)
    (hpres : (mlookup acc.m e.2).isSome) :
    (processParent newH acc e).maxLayer = max acc.maxLayer (layerOfD acc.m e.2) := by
  unfold processParent
  match hl : mlookup acc.m e.2 with
  | none => rw [hl] at hpres; simp at hpres
  | some parent => simp [hl, goMax_eq, layerOfD]

theorem layerOfD_processParent (newH : Hash) (acc : ParentAcc) (e : Nat × Hash) (k : Hash) :
    layerOfD (processParent newH acc e).m k = layerOfD acc.m k := by
  unfold layerOfD
  rw [processParent_lookup]
  by_cases hk : k = e.2
  · rw [if_pos hk]
    match hl : mlookup acc.m k with
    | none => rfl
    | some b => simp [withChild]
  · rw [if_neg hk]

theorem fold_pp_maxLayer (newH : Hash) (l : List (Nat × Hash)) (acc : ParentAcc)
    (hpres : ∀ x ∈ l.map Prod.snd, (mlookup acc.m x).isSome) :
    (l.foldl (processParent newH) acc).maxLayer =
      (l.map Prod.snd).foldl (fun a p => max a (layerOfD acc.m p)) acc.maxLayer := by
  induction l generalizing acc with
  | nil => rfl
  | cons e rest ih =>
    have hpe : (mlookup acc.m e.2).isSome := hpres e.2 (by simp)
    have hrest : ∀ y ∈ rest.map Prod.snd, (mlookup (processParent newH acc e).m y).isSome := by
      intro y hy
      have := fold_pp_isSome newH [e] acc y
      simp only [List.foldl_cons, List.foldl_nil] at this
      rw [this]
      exact hpres y (by simp [hy])
    rw [List.foldl_cons, ih _ hrest, processParent_maxLayer newH acc e hpe]
    simp only [List.map_cons, List.foldl_cons]
    exact foldl_max_congr (fun y _ => layerOfD_processParent newH acc e y)

theorem hasBlocks_iff {bd : BlockDAG} {ps : List Hash} :
    hasBlocks bd ps = true ↔ ∀ x ∈ ps, (mlookup bd.blocks x).isSome = true := by
  simp [hasBlocks, hasBlock, getBlock, List.all_eq_true]

theorem hasBlock_false_iff {bd : BlockDAG} {h : Hash} :
    hasBlock bd h = false ↔ mlookup bd.blocks h = none := by
  unfold hasBlock getBlock
  cases mlookup bd.blocks h <;> simp

theorem updateTips_tips (bd : BlockDAG) (b : Block) :
    (updateTips bd b).tips =
      bd.tips.filter (fun k => !(hasChildrenIn bd.blocks k)) ++ [b.hash] := by
  unfold updateTips
  by_cases h : bd.tips.isEmpty
  · rw [if_pos h]
    have hnil : bd.tips = [] := List.isEmpty_iff.mp h
    simp [hnil]
  · rw [if_neg h]

theorem updateTips_blocks (bd : BlockDAG) (b : Block) :
    (updateTips bd b).blocks = bd.blocks := by
  unfold updateTips; split <;> rfl

theorem updateTips_genesis (bd : BlockDAG) (b : Block) :
    (updateTips bd b).genesis = bd.genesis := by
  unfold updateTips; split <;> rfl

theorem updateTips_blockTotal (bd : BlockDAG) (b : Block) :
    (updateTips bd b).blockTotal = bd.blockTotal := by
  unfold updateTips; split <;> rfl

theorem updateTips_order (bd : BlockDAG) (b : Block) :
    (updateTips bd b).order = bd.order := by
  unfold updateTips; split <;> rfl

theorem updateTips_lastTime (bd : BlockDAG) (b : Block) :
    (updateTips bd b).lastTime = bd.lastTime := by
  unfold updateTips; split <;> rfl

theorem finishAdd_fst (instAdd : Block → Option (List Hash)) (bd : BlockDAG)
    (m : List (Hash × Block)) (blk : Block) (ts : Int) :
    (finishAdd instAdd bd m blk ts).1 = nextState bd m blk ts := rfl

theorem nextState_blocks (bd : BlockDAG) (m : List (Hash × Block)) (blk : Block) (ts : Int) :
    (nextState bd m blk ts).blocks = m ++ [(blk.hash, blk)] := by
  simp [nextState, finishAdd, updateTips_blocks]

theorem nextState_genesis (bd : BlockDAG) (m : List (Hash × Block)) (blk : Block) (ts : Int) :
    (nextState bd m blk ts).genesis = if bd.blockTotal = 0 then blk.hash else bd.genesis := by
  simp [nextState, finishAdd, updateTips_genesis]

theorem nextState_blockTotal (bd : BlockDAG) (m : List (Hash × Block)) (blk : Block) (ts : Int) :
    (nextState bd m blk ts).blockTotal = bd.blockTotal + 1 := by
  simp [nextState, finishAdd, updateTips_blockTotal]

theorem nextState_order (bd : BlockDAG) (m : List (Hash × Block)) (blk : Block) (ts : Int) :
    (nextState bd m blk ts).order = bd.order := by
  simp [nextState, finishAdd, updateTips_order]

theorem nextState_tips (bd : BlockDAG) (m : List (Hash × Block)) (blk : Block) (ts : Int) :
    (nextState bd m blk ts).tips =
      bd.tips.filter (fun k => !(hasChildrenIn (m ++ [(blk.hash, blk)]) k)) ++ [blk.hash] := by
  simp [nextState, finishAdd, updateTips_tips]

theorem addBlock_success_parents (instAdd : Block → Option (List Hash)) (bd : BlockDAG)
    (b : BlockData) (hdup : hasBlock bd b.hash = false) (htot : 0 < bd.blockTotal)
    (hpe : b.parents.isEmpty = false) (hpb : hasBlocks bd b.parents = true) :
    addBlock instAdd bd (some b) =
      (nextState bd (succAcc bd b).m (succBlk bd b) b.timestamp, instAdd (succBlk bd b)) := by
  simp only [addBlock]
  rw [if_neg (by simp [hdup]), if_neg (by simp [hpe]), if_neg (by simp [hpb]),
    if_neg (by simp [isDAG]), if_pos htot]
  rfl

theorem addBlock_success_empty (instAdd : Block → Option (List Hash)) (bd : BlockDAG)
    (b : BlockData) (hdup : hasBlock bd b.hash = false) (htot : bd.blockTotal = 0) :
    addBlock instAdd bd (some b) =
      (nextState bd bd.blocks (baseBlk bd b) b.timestamp, instAdd (baseBlk bd b)) := by
  simp only [addBlock]
  rw [if_neg (by simp [hdup]), if_neg (by simp [htot]), if_neg (by simp [htot]),
    if_neg (by simp [isDAG]), if_neg (by simp [htot])]
  rfl

@[simp]
theorem succBlk_hash (bd : BlockDAG) (b : BlockData) : (succBlk bd b).hash = b.hash := rfl

theorem withChild_children_mem {n x : Hash} {bb : Block} :
    x ∈ (withChild n bb).children ↔ x ∈ bb.children ∨ x = n := mem_hsAdd

theorem ifChild_hash {c : Prop} [Decidable c] {n : Hash} {bb : Block} :
    (if c then withChild n bb else bb).hash = bb.hash := by split <;> rfl

theorem ifChild_parents {c : Prop} [Decidable c] {n : Hash} {bb : Block} :
    (if c then withChild n bb else bb).parents = bb.parents := by split <;> rfl

theorem ifChild_layer {c : Prop} [Decidable c] {n : Hash} {bb : Block} :
    (if c then withChild n bb else bb).layer = bb.layer := by split <;> rfl

theorem ifChild_id {c : Prop} [Decidable c] {n : Hash} {bb : Block} :
    (if c then withChild n bb else bb).id = bb.id := by split <;> rfl

theorem ifChild_children_mem {c : Prop} [Decidable c] {n x : Hash} {bb : Block} :
    x ∈ (if c then withChild n bb else bb).children ↔ x ∈ bb.children ∨ (x = n ∧ c) := by
  by_cases hc : c
  · rw [if_pos hc, withChild_children_mem]
    tauto
  · rw [if_neg hc]
    tauto

theorem maxLayerIn_congr {m m' : List (Hash × Block)} {ps : List Hash}
    (h : ∀ p ∈ ps, layerOfD m' p = layerOfD m p) : maxLayerIn m' ps = maxLayerIn m ps :=
  foldl_max_congr h

theorem maxLayerIn_eq_of_mem_iff {m : List (Hash × Block)} {l₁ l₂ : List Hash}
    (h : ∀ x, x ∈ l₁ ↔ x ∈ l₂) : maxLayerIn m l₁ = maxLayerIn m l₂ :=
  Nat.le_antisymm
    (foldl_max_le (Nat.zero_le _) (fun x hx => le_foldl_max ((h x).mp hx)))
    (foldl_max_le (Nat.zero_le _) (fun x hx => le_foldl_max ((h x).mpr hx)))

/-- `Inv` is preserved by a successful `AddBlock` on a non-empty DAG. -/
theorem inv_nextState_parents (bd : BlockDAG) (hinv : Inv bd) (b : BlockData)
    (hdup : hasBlock bd b.hash = false) (htot : 0 < bd.blockTotal)
    (hpe : b.parents.isEmpty = false) (hpb : hasBlocks bd b.parents = true) :
    Inv (nextState bd (succAcc bd b).m (succBlk bd b) b.timestamp) := by
  have htotne : bd.blockTotal ≠ 0 := Nat.pos_iff_ne_zero.mp htot
  have hnew : mlookup bd.blocks b.hash = none := hasBlock_false_iff.mp hdup
  have hpres : ∀ x ∈ b.parents, (mlookup bd.blocks x).isSome = true := hasBlocks_iff.mp hpb
  have hpsne : b.parents ≠ [] := by
    intro hc; rw [hc] at hpe; simp at hpe
  have hnotps : b.hash ∉ b.parents := by
    intro hc
    have := hpres _ hc
    rw [hnew] at this
    simp at this
  have hgenne : bd.genesis ≠ b.hash := by
    intro hc
    have := hinv.genesis_some htotne
    rw [hc, hnew] at this
    simp at this
  have haccm : ∀ k, mlookup (succAcc bd b).m k =
      if k ∈ b.parents then (mlookup bd.blocks k).map (withChild b.hash)
      else mlookup bd.blocks k := by
    intro k
    have h := fold_pp_lookup b.hash b.parents.enum
      { m := bd.blocks, bparents := [], mainParent := none, maxLayer := 0 } k
    rw [enum_map_snd] at h
    exact h
  have hLnewH : mlookup ((succAcc bd b).m ++ [(b.hash, succBlk bd b)]) b.hash
      = some (succBlk bd b) := by
    have h0 : mlookup (succAcc bd b).m b.hash = none := by
      rw [haccm, if_neg hnotps]; exact hnew
    rw [mlookup_append_none h0]; simp
  have hLold : ∀ k, k ≠ b.hash →
      mlookup ((succAcc bd b).m ++ [(b.hash, succBlk bd b)]) k = mlookup (succAcc bd b).m k := by
    intro k hk
    match hacc : mlookup (succAcc bd b).m k with
    | some v => exact mlookup_append_some hacc
    | none => rw [mlookup_append_none hacc]; simp [hk]
  have hOld : ∀ k bOld, mlookup bd.blocks k = some bOld →
      mlookup ((succAcc bd b).m ++ [(b.hash, succBlk bd b)]) k =
        some (if k ∈ b.parents then withChild b.hash bOld else bOld) := by
    intro k bOld hk
    have hkne : k ≠ b.hash := by
      intro hc; rw [hc, hnew] at hk; exact Option.noConfusion hk
    rw [hLold k hkne, haccm k]
    by_cases hkp : k ∈ b.parents
    · rw [if_pos hkp, if_pos hkp, hk]; rfl
    · rw [if_neg hkp, if_neg hkp, hk]
  have hOldRev : ∀ k bNew, k ≠ b.hash →
      mlookup ((succAcc bd b).m ++ [(b.hash, succBlk bd b)]) k = some bNew →
      ∃ bOld, mlookup bd.blocks k = some bOld ∧
        bNew = (if k ∈ b.parents then withChild b.hash bOld else bOld) := by
    intro k bNew hk hlk
    rw [hLold k hk, haccm k] at hlk
    by_cases hkp : k ∈ b.parents
    · rw [if_pos hkp] at hlk
      match h0 : mlookup bd.blocks k with
      | none => rw [h0] at hlk; exact Option.noConfusion hlk
      | some bOld =>
        rw [h0] at hlk
        simp only [Option.map_some'] at hlk
        exact ⟨bOld, rfl, by rw [if_pos hkp]; exact (Option.some.inj hlk).symm⟩
    · rw [if_neg hkp] at hlk
      exact ⟨bNew, hlk, by rw [if_neg hkp]⟩
  have hpres' : ∀ k, (mlookup bd.blocks k).isSome = true →
      (mlookup ((succAcc bd b).m ++ [(b.hash, succBlk bd b)]) k).isSome = true := by
    intro k hk
    rcases Option.isSome_iff_exists.mp hk with ⟨v, hv⟩
    rw [hOld k v hv]; rfl
  have hblkparents : ∀ x, x ∈ (succBlk bd b).parents ↔ x ∈ b.parents := by
    intro x
    have h := fold_pp_bparents b.hash b.parents.enum
      { m := bd.blocks, bparents := [], mainParent := none, maxLayer := 0 }
      (by rw [enum_map_snd]; exact hpres) x
    rw [enum_map_snd] at h
    simpa using h
  have hblkparentsne : (succBlk bd b).parents ≠ [] := by
    rcases List.exists_mem_of_ne_nil _ hpsne with ⟨x, hx⟩
    exact List.ne_nil_of_mem ((hblkparents x).mpr hx)
  have hblklayer : (succBlk bd b).layer = maxLayerIn bd.blocks b.parents + 1 := by
    have h := fold_pp_maxLayer b.hash b.parents.enum
      { m := bd.blocks, bparents := [], mainParent := none, maxLayer := 0 }
      (by rw [enum_map_snd]; exact hpres)
    rw [enum_map_snd] at h
    show (succAcc bd b).maxLayer + 1 = _
    unfold succAcc
    rw [h]
    rfl
  have hlayerpres : ∀ p, (mlookup bd.blocks p).isSome = true →
      layerOfD ((succAcc bd b).m ++ [(b.hash, succBlk bd b)]) p = layerOfD bd.blocks p := by
    intro p hp
    rcases Option.isSome_iff_exists.mp hp with ⟨v, hv⟩
    unfold layerOfD
    rw [hOld p v hv, hv]
    simp [ifChild_layer]
  refine
    { total_len := ?_, hash_eq := ?_, parents_some := ?_, children_some := ?_,
      child_to_parent := ?_, parent_to_child := ?_, genesis_some := ?_,
      parents_empty_iff := ?_, layer_rec := ?_, layer_genesis := ?_,
      parent_id_lt := ?_, id_lt_total := ?_, layer_le_id := ?_,
      tips_iff := ?_, tip_reach := ?_ }
  · -- total_len
    rw [nextState_blockTotal, nextState_blocks, List.length_append]
    have h := fold_pp_length b.hash b.parents.enum
      { m := bd.blocks, bparents := [], mainParent := none, maxLayer := 0 }
    show bd.blockTotal + 1 = (succAcc bd b).m.length + [((succBlk bd b).hash, succBlk bd b)].length
    rw [show (succAcc bd b).m.length = bd.blocks.length from h, ← hinv.total_len]
    rfl
  · -- hash_eq
    intro h bb hlk
    rw [nextState_blocks, succBlk_hash] at hlk
    by_cases hh : h = b.hash
    · rw [hh, hLnewH] at hlk
      rw [← Option.some.inj hlk, succBlk_hash, hh]
    · rcases hOldRev h bb hh hlk with ⟨bOld, hbOld, rfl⟩
      rw [ifChild_hash]
      exact hinv.hash_eq h bOld hbOld
  · -- parents_some
    intro h bb p hlk hp
    rw [nextState_blocks, succBlk_hash] at hlk ⊢
    by_cases hh : h = b.hash
    · rw [hh, hLnewH] at hlk
      rw [← Option.some.inj hlk] at hp
      exact hpres' p (hpres p ((hblkparents p).mp hp))
    · rcases hOldRev h bb hh hlk with ⟨bOld, hbOld, rfl⟩
      rw [ifChild_parents] at hp
      exact hpres' p (hinv.parents_some h bOld p hbOld hp)
  · -- children_some
    intro h bb c hlk hc
    rw [nextState_blocks, succBlk_hash] at hlk ⊢
    by_cases hh : h = b.hash
    · rw [hh, hLnewH] at hlk
      rw [← Option.some.inj hlk] at hc
      exact absurd hc (List.not_mem_nil c)
    · rcases hOldRev h bb hh hlk with ⟨bOld, hbOld, rfl⟩
      rcases ifChild_children_mem.mp hc with hco | ⟨rfl, _⟩
      · exact hpres' c (hinv.children_some h bOld c hbOld hco)
      · rw [hLnewH]; rfl
  · -- child_to_parent
    intro h bb c cb hlk hc hlkc
    rw [nextState_blocks, succBlk_hash] at hlk hlkc
    by_cases hh : h = b.hash
    · rw [hh, hLnewH] at hlk
      rw [← Option.some.inj hlk] at hc
      exact absurd hc (List.not_mem_nil c)
    · rcases hOldRev h bb hh hlk with ⟨bOld, hbOld, rfl⟩
      rcases ifChild_children_mem.mp hc with hco | ⟨rfl, hhp⟩
      · have hcne : c ≠ b.hash := by
          intro hc'
          have := hinv.children_some h bOld c hbOld hco
          rw [hc', hnew] at this
          simp at this
        rcases Option.isSome_iff_exists.mp (hinv.children_some h bOld c hbOld hco) with ⟨cOld, hcOld⟩
        rcases hOldRev c cb hcne hlkc with ⟨cOld', hcOld', rfl⟩
        rw [ifChild_parents]
        rw [hcOld'] at hcOld
        exact hinv.child_to_parent h bOld c cOld' hbOld hco hcOld'
      · rw [hLnewH] at hlkc
        rw [← Option.some.inj hlkc]
        exact (hblkparents h).mpr hhp
  · -- parent_to_child
    intro h bb p pb hlk hp hlkp
    rw [nextState_blocks, succBlk_hash] at hlk hlkp
    by_cases hh : h = b.hash
    · rw [hh, hLnewH] at hlk
      rw [← Option.some.inj hlk] at hp
      have hpp : p ∈ b.parents := (hblkparents p).mp hp
      rcases Option.isSome_iff_exists.mp (hpres p hpp) with ⟨pOld, hpOld⟩
      have := hOld p pOld hpOld
      rw [if_pos hpp] at this
      rw [this] at hlkp
      rw [← Option.some.inj hlkp, hh]
      exact withChild_children_mem.mpr (Or.inr rfl)
    · rcases hOldRev h bb hh hlk with ⟨bOld, hbOld, rfl⟩
      rw [ifChild_parents] at hp
      rcases Option.isSome_iff_exists.mp (hinv.parents_some h bOld p hbOld hp) with ⟨pOld, hpOld⟩
      have hpne : p ≠ b.hash := by
        intro hc; rw [hc, hnew] at hpOld; exact Option.noConfusion hpOld
      have := hOld p pOld hpOld
      rw [this] at hlkp
      rw [← Option.some.inj hlkp]
      exact ifChild_children_mem.mpr
        (Or.inl (hinv.parent_to_child h bOld p pOld hbOld hp hpOld))
  · -- genesis_some
    intro _
    rw [nextState_blocks, nextState_genesis, if_neg htotne, succBlk_hash]
    exact hpres' bd.genesis (hinv.genesis_some htotne)
  · -- parents_empty_iff
    intro h bb hlk
    rw [nextState_blocks, succBlk_hash] at hlk
    rw [nextState_genesis, if_neg htotne]
    by_cases hh : h = b.hash
    · rw [hh, hLnewH] at hlk
      rw [← Option.some.inj hlk]
      constructor
      · intro hc; exact absurd hc hblkparentsne
      · intro hc; exact absurd (hc.symm.trans hh) hgenne
    · rcases hOldRev h bb hh hlk with ⟨bOld, hbOld, rfl⟩
      rw [ifChild_parents]
      exact hinv.parents_empty_iff h bOld hbOld
  · -- layer_rec
    intro h bb hlk hbne
    rw [nextState_blocks, succBlk_hash] at hlk ⊢
    by_cases hh : h = b.hash
    · rw [hh, hLnewH] at hlk
      rw [← Option.some.inj hlk]
      rw [hblklayer]
      have hc : maxLayerIn ((succAcc bd b).m ++ [(b.hash, succBlk bd b)]) (succBlk bd b).parents
          = maxLayerIn bd.blocks (succBlk bd b).parents :=
        maxLayerIn_congr (fun p hp => hlayerpres p (hpres p ((hblkparents p).mp hp)))
      rw [hc, maxLayerIn_eq_of_mem_iff hblkparents]
    · rcases hOldRev h bb hh hlk with ⟨bOld, hbOld, rfl⟩
      rw [ifChild_parents] at hbne ⊢
      rw [ifChild_layer]
      have hc : maxLayerIn ((succAcc bd b).m ++ [(b.hash, succBlk bd b)]) bOld.parents
          = maxLayerIn bd.blocks bOld.parents :=
        maxLayerIn_congr (fun p hp => hlayerpres p (hinv.parents_some h bOld p hbOld hp))
      rw [hc]
      exact hinv.layer_rec h bOld hbOld hbne
  · -- layer_genesis
    intro bb hlk
    rw [nextState_blocks, nextState_genesis, if_neg htotne, succBlk_hash] at hlk
    rcases hOldRev bd.genesis bb hgenne hlk with ⟨bOld, hbOld, rfl⟩
    rw [ifChild_layer]
    exact hinv.layer_genesis bOld hbOld
  · -- parent_id_lt
    intro h bb p pb hlk hp hlkp
    rw [nextState_blocks, succBlk_hash] at hlk hlkp
    by_cases hh : h = b.hash
    · rw [hh, hLnewH] at hlk
      rw [← Option.some.inj hlk] at hp ⊢
      have hpp : p ∈ b.parents := (hblkparents p).mp hp
      rcases Option.isSome_iff_exists.mp (hpres p hpp) with ⟨pOld, hpOld⟩
      have hpo := hOld p pOld hpOld
      rw [hpo] at hlkp
      rw [← Option.some.inj hlkp, ifChild_id]
      exact hinv.id_lt_total p pOld hpOld
    · rcases hOldRev h bb hh hlk with ⟨bOld, hbOld, rfl⟩
      rw [ifChild_parents] at hp
      rcases Option.isSome_iff_exists.mp (hinv.parents_some h bOld p hbOld hp) with ⟨pOld, hpOld⟩
      have hpo := hOld p pOld hpOld
      rw [hpo] at hlkp
      rw [← Option.some.inj hlkp, ifChild_id, ifChild_id]
      exact hinv.parent_id_lt h bOld p pOld hbOld hp hpOld
  · -- id_lt_total
    intro h bb hlk
    rw [nextState_blocks, succBlk_hash] at hlk
    rw [nextState_blockTotal]
    by_cases hh : h = b.hash
    · rw [hh, hLnewH] at hlk
      rw [← Option.some.inj hlk]
      exact Nat.lt_succ_self _
    · rcases hOldRev h bb hh hlk with ⟨bOld, hbOld, rfl⟩
      rw [ifChild_id]
      exact Nat.lt_succ_of_lt (hinv.id_lt_total h bOld hbOld)
  · -- layer_le_id
    intro h bb hlk
    rw [nextState_blocks, succBlk_hash] at hlk
    by_cases hh : h = b.hash
    · rw [hh, hLnewH] at hlk
      rw [← Option.some.inj hlk, hblklayer]
      show maxLayerIn bd.blocks b.parents + 1 ≤ bd.blockTotal
      have hb : maxLayerIn bd.blocks b.parents ≤ bd.blockTotal - 1 := by
        refine foldl_max_le (Nat.zero_le _) ?_
        intro p hp
        rcases Option.isSome_iff_exists.mp (hpres p hp) with ⟨pOld, hpOld⟩
        have h1 : layerOfD bd.blocks p = pOld.layer := by unfold layerOfD; rw [hpOld]; rfl
        have h2 : pOld.layer ≤ pOld.id := hinv.layer_le_id p pOld hpOld
        have h3 : pOld.id < bd.blockTotal := hinv.id_lt_total p pOld hpOld
        omega
      omega
    · rcases hOldRev h bb hh hlk with ⟨bOld, hbOld, rfl⟩
      rw [ifChild_layer, ifChild_id]
      exact hinv.layer_le_id h bOld hbOld
  · -- tips_iff
    intro h
    rw [nextState_blocks, nextState_tips, succBlk_hash]
    constructor
    · intro hmem
      rcases List.mem_append.mp hmem with hf | hlast
      · rcases List.mem_filter.mp hf with ⟨htip, hnc⟩
        rcases (hinv.tips_iff h).mp htip with ⟨bOld, hbOld, hbchild⟩
        refine ⟨_, hOld h bOld hbOld, ?_⟩
        have hnc' : hasChildrenIn ((succAcc bd b).m ++ [(b.hash, succBlk bd b)]) h = false := by
          simpa using hnc
        unfold hasChildrenIn at hnc'
        rw [hOld h bOld hbOld] at hnc'
        simp only [Bool.not_eq_false'] at hnc'
        exact List.isEmpty_iff.mp hnc'
      · have hh : h = b.hash := by simpa using hlast
        exact ⟨succBlk bd b, by rw [hh]; exact hLnewH, rfl⟩
    · rintro ⟨bb, hlk, hbc⟩
      by_cases hh : h = b.hash
      · exact List.mem_append.mpr (Or.inr (by simp [hh]))
      · rcases hOldRev h bb hh hlk with ⟨bOld, hbOld, rfl⟩
        have hnotp : h ∉ b.parents := by
          intro hcp
          rw [if_pos hcp] at hbc
          exact hsAdd_ne_nil hbc
        rw [if_neg hnotp] at hbc
        have htip : h ∈ bd.tips := (hinv.tips_iff h).mpr ⟨bOld, hbOld, hbc⟩
        refine List.mem_append.mpr (Or.inl (List.mem_filter.mpr ⟨htip, ?_⟩))
        have : mlookup ((succAcc bd b).m ++ [(b.hash, succBlk bd b)]) h = some bOld := by
          have := hOld h bOld hbOld
          rw [if_neg hnotp] at this
          exact this
        simp [hasChildrenIn, this, hbc]
  · -- tip_reach
    intro h bb hlk
    rw [nextState_blocks, succBlk_hash] at hlk
    rw [nextState_tips, nextState_blocks, succBlk_hash]
    have hlift : ∀ x y, ChildEdge bd.blocks x y →
        ChildEdge ((succAcc bd b).m ++ [(b.hash, succBlk bd b)]) x y := by
      rintro x y ⟨bx, hbx, hy⟩
      exact ⟨_, hOld x bx hbx, ifChild_children_mem.mpr (Or.inl hy)⟩
    by_cases hh : h = b.hash
    · refine ⟨b.hash, List.mem_append.mpr (Or.inr (by simp)), Or.inl hh⟩
    · rcases hOldRev h bb hh hlk with ⟨bOld, hbOld, _⟩
      rcases hinv.tip_reach h bOld hbOld with ⟨t, htip, hpath⟩
      rcases (hinv.tips_iff t).mp htip with ⟨tb, htb, htbc⟩
      by_cases htp : t ∈ b.parents
      · have hlkt : mlookup ((succAcc bd b).m ++ [(b.hash, succBlk bd b)]) t
            = some (withChild b.hash tb) := by
          have := hOld t tb htb
          rw [if_pos htp] at this
          exact this
        have hedge : ChildEdge ((succAcc bd b).m ++ [(b.hash, succBlk bd b)]) t b.hash :=
          ⟨withChild b.hash tb, hlkt, hsAdd_self_mem⟩
        refine ⟨b.hash, List.mem_append.mpr (Or.inr (by simp)), Or.inr ?_⟩
        rcases hpath with rfl | hp
        · exact Relation.TransGen.single hedge
        · exact Relation.TransGen.tail (Relation.TransGen.mono hlift hp) hedge
      · have hlkt : mlookup ((succAcc bd b).m ++ [(b.hash, succBlk bd b)]) t = some tb := by
          have := hOld t tb htb
          rw [if_neg htp] at this
          exact this
        refine ⟨t, List.mem_append.mpr (Or.inl (List.mem_filter.mpr ⟨htip, ?_⟩)), ?_⟩
        · simp [hasChildrenIn, hlkt, htbc]
        · rcases hpath with rfl | hp
          · exact Or.inl rfl
          · exact Or.inr (Relation.TransGen.mono hlift hp)

/-- `Inv` is preserved by a successful `AddBlock` on the empty DAG. -/
theorem inv_nextState_empty (bd : BlockDAG) (hinv : Inv bd) (b : BlockData)
    (htot : bd.blockTotal = 0) :
    Inv (nextState bd bd.blocks (baseBlk bd b) b.timestamp) := by
  have hm0 : bd.blocks = [] := by
    have h := hinv.total_len
    rw [htot] at h
    exact List.length_eq_zero.mp h.symm
  have htips0 : bd.tips = [] := by
    refine List.eq_nil_iff_forall_not_mem.mpr (fun h hmem => ?_)
    rcases (hinv.tips_iff h).mp hmem with ⟨bb, hbb, _⟩
    rw [hm0] at hbb
    exact Option.noConfusion hbb
  have hbase : (baseBlk bd b).hash = b.hash := rfl
  have hblocks' : (nextState bd bd.blocks (baseBlk bd b) b.timestamp).blocks
      = [(b.hash, baseBlk bd b)] := by
    rw [nextState_blocks, hm0, hbase, List.nil_append]
  have htips' : (nextState bd bd.blocks (baseBlk bd b) b.timestamp).tips = [b.hash] := by
    rw [nextState_tips, hbase, htips0, List.filter_nil, List.nil_append]
  have hlk : ∀ k, mlookup [(b.hash, baseBlk bd b)] k
      = if k = b.hash then some (baseBlk bd b) else none := by
    intro k
    rw [mlookup_cons]
    rfl
  refine
    { total_len := ?_, hash_eq := ?_, parents_some := ?_, children_some := ?_,
      child_to_parent := ?_, parent_to_child := ?_, genesis_some := ?_,
      parents_empty_iff := ?_, layer_rec := ?_, layer_genesis := ?_,
      parent_id_lt := ?_, id_lt_total := ?_, layer_le_id := ?_,
      tips_iff := ?_, tip_reach := ?_ }
  · rw [nextState_blockTotal, hblocks', htot]; rfl
  · intro h bb hl
    rw [hblocks', hlk] at hl
    by_cases hh : h = b.hash
    · rw [if_pos hh] at hl
      rw [← Option.some.inj hl, hbase, hh]
    · rw [if_neg hh] at hl; exact Option.noConfusion hl
  · intro h bb p hl hp
    rw [hblocks', hlk] at hl
    by_cases hh : h = b.hash
    · rw [if_pos hh] at hl
      rw [← Option.some.inj hl] at hp
      exact absurd hp (List.not_mem_nil p)
    · rw [if_neg hh] at hl; exact Option.noConfusion hl
  · intro h bb c hl hc
    rw [hblocks', hlk] at hl
    by_cases hh : h = b.hash
    · rw [if_pos hh] at hl
      rw [← Option.some.inj hl] at hc
      exact absurd hc (List.not_mem_nil c)
    · rw [if_neg hh] at hl; exact Option.noConfusion hl
  · intro h bb c cb hl hc hlc
    rw [hblocks', hlk] at hl
    by_cases hh : h = b.hash
    · rw [if_pos hh] at hl
      rw [← Option.some.inj hl] at hc
      exact absurd hc (List.not_mem_nil c)
    · rw [if_neg hh] at hl; exact Option.noConfusion hl
  · intro h bb p pb hl hp hlp
    rw [hblocks', hlk] at hl
    by_cases hh : h = b.hash
    · rw [if_pos hh] at hl
      rw [← Option.some.inj hl] at hp
      exact absurd hp (List.not_mem_nil p)
    · rw [if_neg hh] at hl; exact Option.noConfusion hl
  · intro _
    rw [hblocks', nextState_genesis, if_pos htot, hbase, hlk, if_pos rfl]
    rfl
  · intro h bb hl
    rw [hblocks', hlk] at hl
    rw [nextState_genesis, if_pos htot, hbase]
    by_cases hh : h = b.hash
    · rw [if_pos hh] at hl
      rw [← Option.some.inj hl]
      simp [baseBlk, hh]
    · rw [if_neg hh] at hl; exact Option.noConfusion hl
  · intro h bb hl hbne
    rw [hblocks', hlk] at hl
    by_cases hh : h = b.hash
    · rw [if_pos hh] at hl
      rw [← Option.some.inj hl] at hbne
      exact absurd rfl hbne
    · rw [if_neg hh] at hl; exact Option.noConfusion hl
  · intro bb hl
    rw [hblocks', nextState_genesis, if_pos htot, hbase, hlk, if_pos rfl] at hl
    rw [← Option.some.inj hl]
    rfl
  · intro h bb p pb hl hp hlp
    rw [hblocks', hlk] at hl
    by_cases hh : h = b.hash
    · rw [if_pos hh] at hl
      rw [← Option.some.inj hl] at hp
      exact absurd hp (List.not_mem_nil p)
    · rw [if_neg hh] at hl; exact Option.noConfusion hl
  · intro h bb hl
    rw [hblocks', hlk] at hl
    rw [nextState_blockTotal]
    by_cases hh : h = b.hash
    · rw [if_pos hh] at hl
      rw [← Option.some.inj hl]
      exact Nat.lt_succ_self _
    · rw [if_neg hh] at hl; exact Option.noConfusion hl
  · intro h bb hl
    rw [hblocks', hlk] at hl
    by_cases hh : h = b.hash
    · rw [if_pos hh] at hl
      rw [← Option.some.inj hl]
      exact Nat.zero_le _
    · rw [if_neg hh] at hl; exact Option.noConfusion hl
  · intro h
    rw [hblocks', htips', hlk]
    constructor
    · intro hmem
      have hh : h = b.hash := by simpa using hmem
      exact ⟨baseBlk bd b, by rw [if_pos hh], rfl⟩
    · rintro ⟨bb, hl, _⟩
      by_cases hh : h = b.hash
      · simp [hh]
      · rw [if_neg hh] at hl; exact Option.noConfusion hl
  · intro h bb hl
    rw [hblocks', hlk] at hl
    rw [htips']
    by_cases hh : h = b.hash
    · exact ⟨b.hash, by simp, Or.inl hh⟩
    · rw [if_neg hh] at hl; exact Option.noConfusion hl

/-- `Inv` holds for the freshly initialized framework. -/
theorem inv_initDAG (t : Int) : Inv (initDAG t) := by
  refine
    { total_len := rfl, hash_eq := ?_, parents_some := ?_, children_some := ?_,
      child_to_parent := ?_, parent_to_child := ?_, genesis_some := ?_,
      parents_empty_iff := ?_, layer_rec := ?_, layer_genesis := ?_,
      parent_id_lt := ?_, id_lt_total := ?_, layer_le_id := ?_,
      tips_iff := ?_, tip_reach := ?_ }
  · intro h bb hl; exact Option.noConfusion hl
  · intro h bb p hl _; exact Option.noConfusion hl
  · intro h bb c hl _; exact Option.noConfusion hl
  · intro h bb c cb hl _ _; exact Option.noConfusion hl
  · intro h bb p pb hl _ _; exact Option.noConfusion hl
  · intro h; exact absurd rfl h
  · intro h bb hl; exact Option.noConfusion hl
  · intro h bb hl; exact Option.noConfusion hl
  · intro bb hl; exact Option.noConfusion hl
  · intro h bb p pb hl _ _; exact Option.noConfusion hl
  · intro h bb hl; exact Option.noConfusion hl
  · intro h bb hl; exact Option.noConfusion hl
  · intro h
    constructor
    · intro hc; exact absurd hc (List.not_mem_nil h)
    · rintro ⟨bb, hl, _⟩; exact Option.noConfusion hl
  · intro h bb hl; exact Option.noConfusion hl

/-- `Inv` is preserved by every `AddBlock` call. -/
theorem inv_addBlock (instAdd : Block → Option (List Hash)) (bd : BlockDAG)
    (d : Option BlockData) (hinv : Inv bd) : Inv (addBlock instAdd bd d).1 := by
  match d with
  | none => exact hinv
  | some b =>
    by_cases hdup : hasBlock bd b.hash
    · rw [addBlock_rejected_noop instAdd bd (some b) (by simp [rejectedInput, hdup])]
      exact hinv
    · have hdup' : hasBlock bd b.hash = false := by simpa using hdup
      by_cases htot : 0 < bd.blockTotal
      · by_cases hpe : b.parents.isEmpty
        · rw [addBlock_rejected_noop instAdd bd (some b)
            (by simp [rejectedInput, hdup', htot, hpe])]
          exact hinv
        · by_cases hpb : hasBlocks bd b.parents
          · rw [addBlock_success_parents instAdd bd b hdup' htot (by simpa using hpe) hpb]
            exact inv_nextState_parents bd hinv b hdup' htot (by simpa using hpe) hpb
          · rw [addBlock_rejected_noop instAdd bd (some b)
              (by simp [rejectedInput, hdup', htot, hpe, hpb])]
            exact hinv
      · have htot0 : bd.blockTotal = 0 := Nat.eq_zero_of_not_pos htot
        rw [addBlock_success_empty instAdd bd b hdup' htot0]
        exact inv_nextState_empty bd hinv b htot0

/-- `Inv` holds for every reachable state. -/
theorem inv_runAdds (instAdd : Block → Option (List Hash)) (t : Int)
    (inputs : List (Option BlockData)) : Inv (runAdds instAdd (initDAG t) inputs) := by
  suffices h : ∀ bd, Inv bd → Inv (runAdds instAdd bd inputs) from h _ (inv_initDAG t)
  induction inputs with
  | nil => intro bd h; exact h
  | cons d rest ih => intro bd h; exact ih _ (inv_addBlock instAdd bd d h)

/-- Claim C2: tip correctness is an invariant — after any sequence of
`AddBlock` calls (each successful call included), the tips set consists of
exactly the hashes of blocks whose children set is empty; and `updateTips`
removes from the tip set every current tip that has acquired a child and
then inserts the newly added block. -/
theorem tips_invariant :
    (∀ (instAdd : Block → Option (List Hash)) (t : Int) (inputs : List (Option BlockData))
        (h : Hash),
      h ∈ (runAdds instAdd (initDAG t) inputs).tips ↔
        ∃ b, mlookup (runAdds instAdd (initDAG t) inputs).blocks h = some b ∧
          b.children = []) ∧
    (∀ (bd : BlockDAG) (b : Block),
      (updateTips bd b).tips =
        bd.tips.filter (fun k => !(hasChildrenIn bd.blocks k)) ++ [b.hash]) :=
  ⟨fun instAdd t inputs h => (inv_runAdds instAdd t inputs).tips_iff h, updateTips_tips⟩

/-- One `AddBlock` call never changes the layer (or parents) of a block
already in the map: rejections leave the state alone, and a successful add
only grows the children set of the new block's parents. -/
theorem addBlock_preserves_block (instAdd : Block → Option (List Hash)) (bd : BlockDAG)
    (d : Option BlockData) (hinv : Inv bd) (h : Hash) (bb : Block)
    (hlk : mlookup bd.blocks h = some bb) :
    ∃ bb', mlookup ((addBlock instAdd bd d).1).blocks h = some bb' ∧
      bb'.layer = bb.layer ∧ bb'.parents = bb.parents := by
  match d with
  | none => exact ⟨bb, hlk, rfl, rfl⟩
  | some b =>
    by_cases hdup : hasBlock bd b.hash
    · rw [addBlock_rejected_noop instAdd bd (some b) (by simp [rejectedInput, hdup])]
      exact ⟨bb, hlk, rfl, rfl⟩
    · have hdup' : hasBlock bd b.hash = false := by simpa using hdup
      have hnew : mlookup bd.blocks b.hash = none := hasBlock_false_iff.mp hdup'
      by_cases htot : 0 < bd.blockTotal
      · by_cases hpe : b.parents.isEmpty
        · rw [addBlock_rejected_noop instAdd bd (some b)
            (by simp [rejectedInput, hdup', htot, hpe])]
          exact ⟨bb, hlk, rfl, rfl⟩
        · by_cases hpb : hasBlocks bd b.parents
          · rw [addBlock_success_parents instAdd bd b hdup' htot (by simpa using hpe) hpb]
            have hkne : h ≠ b.hash := by
              intro hc; rw [hc, hnew] at hlk; exact Option.noConfusion hlk
            have haccm : mlookup (succAcc bd b).m h =
                if h ∈ b.parents then (mlookup bd.blocks h).map (withChild b.hash)
                else mlookup bd.blocks h := by
              have hx := fold_pp_lookup b.hash b.parents.enum
                { m := bd.blocks, bparents := [], mainParent := none, maxLayer := 0 } h
              rw [enum_map_snd] at hx
              exact hx
            rw [nextState_blocks, succBlk_hash]
            have hsome : mlookup (succAcc bd b).m h =
                some (if h ∈ b.parents then withChild b.hash bb else bb) := by
              rw [haccm]
              by_cases hp : h ∈ b.parents
              · rw [if_pos hp, if_pos hp, hlk]; rfl
              · rw [if_neg hp, if_neg hp, hlk]
            refine ⟨_, mlookup_append_some hsome, ?_, ?_⟩
            · rw [ifChild_layer]
            · rw [ifChild_parents]
          · rw [addBlock_rejected_noop instAdd bd (some b)
              (by simp [rejectedInput, hdup', htot, hpe, hpb])]
            exact ⟨bb, hlk, rfl, rfl⟩
      · have htot0 : bd.blockTotal = 0 := Nat.eq_zero_of_not_pos htot
        have hm0 : bd.blocks = [] := by
          have hl := hinv.total_len
          rw [htot0] at hl
          exact List.length_eq_zero.mp hl.symm
        rw [hm0] at hlk
        exact Option.noConfusion hlk

theorem runAdds_append (instAdd : Block → Option (List Hash)) (bd : BlockDAG)
    (l₁ l₂ : List (Option BlockData)) :
    runAdds instAdd bd (l₁ ++ l₂) = runAdds instAdd (runAdds instAdd bd l₁) l₂ := by
  simp [runAdds, List.foldl_append]

theorem runAdds_preserves_block (instAdd : Block → Option (List Hash)) (bd : BlockDAG)
    (more : List (Option BlockData)) (hinv : Inv bd) (h : Hash) (bb : Block)
    (hlk : mlookup bd.blocks h = some bb) :
    ∃ bb', mlookup (runAdds instAdd bd more).blocks h = some bb' ∧ bb'.layer = bb.layer := by
  induction more generalizing bd bb with
  | nil => exact ⟨bb, hlk, rfl⟩
  | cons d rest ih =>
    rcases addBlock_preserves_block instAdd bd d hinv h bb hlk with ⟨bb', hlk', hl', _⟩
    rcases ih (addBlock instAdd bd d).1 (inv_addBlock instAdd bd d hinv) bb' hlk'
      with ⟨bb'', h1, h2⟩
    exact ⟨bb'', h1, h2.trans hl'⟩

/-- Claim C3: layer correctness is an invariant — in every reachable state
the genesis block has layer 0 and every other block has layer equal to 1
plus the maximum layer over its parents (the fold the source computes);
moreover a block's layer is fixed at insertion: it is unchanged by every
later `AddBlock`. -/
theorem layers_invariant :
    (∀ (instAdd : Block → Option (List Hash)) (t : Int) (inputs : List (Option BlockData)),
      (∀ gb, mlookup (runAdds instAdd (initDAG t) inputs).blocks
          (runAdds instAdd (initDAG t) inputs).genesis = some gb → gb.layer = 0) ∧
      (∀ h bb, mlookup (runAdds instAdd (initDAG t) inputs).blocks h = some bb →
        h ≠ (runAdds instAdd (initDAG t) inputs).genesis →
        bb.parents ≠ [] ∧
          bb.layer = 1 + maxLayerIn (runAdds instAdd (initDAG t) inputs).blocks bb.parents)) ∧
    (∀ (instAdd : Block → Option (List Hash)) (t : Int)
        (inputs more : List (Option BlockData)) (h : Hash) (bb : Block),
      mlookup (runAdds instAdd (initDAG t) inputs).blocks h = some bb →
      ∃ bb', mlookup (runAdds instAdd (initDAG t) (inputs ++ more)).blocks h = some bb' ∧
        bb'.layer = bb.layer) := by
  constructor
  · intro instAdd t inputs
    have hinv := inv_runAdds instAdd t inputs
    refine ⟨fun gb hgb => hinv.layer_genesis gb hgb, fun h bb hlk hne => ?_⟩
    have hpne : bb.parents ≠ [] := by
      intro hc
      exact hne ((hinv.parents_empty_iff h bb hlk).mp hc)
    exact ⟨hpne, by rw [hinv.layer_rec h bb hlk hpne, Nat.add_comm]⟩
  · intro instAdd t inputs more h bb hlk
    rw [runAdds_append]
    exact runAdds_preserves_block instAdd _ more (inv_runAdds instAdd t inputs) h bb hlk

/-- Witness for C3 at the two-block chain: block 2 is not genesis, has the
non-empty parent list `[1]`, and its layer is `1 + max(layer 1) = 1`; and the
layer persists under a further add. -/
theorem layers_invariant_witness :
    ((mlookup st2.blocks 2 = some
        { id := 1, hash := 2, parents := [1], children := [], weight := 1, layer := 1,
          order := 0, height := 0, mainParent := some 1 }) ∧
      (2 : Hash) ≠ st2.genesis) ∧
    ({ id := 1, hash := 2, parents := [1], children := [], weight := 1, layer := 1,
        order := 0, height := 0, mainParent := some 1 } : Block).parents ≠ [] ∧
      ({ id := 1, hash := 2, parents := [1], children := [], weight := 1, layer := 1,
          order := 0, height := 0, mainParent := some 1 } : Block).layer =
        1 + maxLayerIn st2.blocks [1] := by
  refine ⟨⟨by decide, by decide⟩, ?_⟩
  have h := (layers_invariant.1 instNone 0 [some gData, some aData]).2 2
    { id := 1, hash := 2, parents := [1], children := [], weight := 1, layer := 1,
      order := 0, height := 0, mainParent := some 1 } (by decide) (by decide)
  exact ⟨h.1, h.2⟩

/-- The BFS loop of `LocateBlocks`: dequeue a block; skip it if it is a peer
tip; admit it when it has no children or every child is a non-peer-tip
already-admitted block; on admission enqueue its not-yet-admitted parents.
`fuel` only bounds the recursion (the source loop always terminates on the
finite DAG); on exhaustion the admitted set so far is returned, which no
theorem below depends on. -/

theorem isExcellent_self (gs : GraphState) : gs.IsExcellent gs = false := by
  simp [GraphState.IsExcellent]

/-- When every queued hash is a peer tip the locator BFS admits nothing new. -/
theorem locateLoop_skip {m : List (Hash × Block)} {gsTips : List Hash} :
    ∀ (fuel : Nat) (queue fs : List Hash), (∀ x ∈ queue, x ∈ gsTips) →
      locateLoop m gsTips fuel queue fs = fs := by
  intro fuel
  induction fuel with
  | zero => intro queue fs _; rfl
  | succ n ih =>
    intro queue fs hq
    match queue with
    | [] => rfl
    | hh :: rest =>
      unfold locateLoop
      rw [if_pos (hq hh (List.mem_cons_self hh rest))]
      exact ih rest fs (fun x hx => hq x (List.mem_cons_of_mem hh hx))

theorem getGraphState_tips_of_ne_nil {mt : Block} {bd : BlockDAG} (h : bd.tips ≠ []) :
    (getGraphState mt bd).tips = bd.tips := by
  unfold getGraphState
  have hE : bd.tips.isEmpty = false := by
    cases hE : bd.tips.isEmpty
    · rfl
    · exact absurd (List.isEmpty_iff.mp hE) h
  rw [hE]
  rfl

theorem filterMap_length_of_all_isSome {α β : Type} {l : List α} {f : α → Option β}
    (h : ∀ x ∈ l, (f x).isSome = true) : (l.filterMap f).length = l.length := by
  induction l with
  | nil => rfl
  | cons x rest ih =>
    rcases Option.isSome_iff_exists.mp (h x (List.mem_cons_self x rest)) with ⟨v, hv⟩
    rw [List.filterMap_cons, hv, List.length_cons,
      ih (fun y hy => h y (List.mem_cons_of_mem x hy))]
    rfl

/-- Claim C6 (counterexample): on the one-block DAG with the peer state equal
to our own graph state, neither side strictly dominates (`IsExcellent` is
false both ways), and `LocateBlocks` returns `some [1]` — a non-null,
non-empty result — where the claim demands an empty/null one. -/
theorem locateBlocks_equal_state_not_empty :
    (getGraphState gBlk st1).IsExcellent (getGraphState gBlk st1) = false ∧
      locateBlocks gBlk st1 (getGraphState gBlk st1) 10 = some [1] :=
  ⟨by decide, by decide⟩

/-- Claim C6 (amended): `LocateBlocks(gs, maxHashes)` returns null exactly
when the peer's graph state strictly dominates the framework's own
(`gs.IsExcellent(ours)`); when it does not — in particular when the two
states are equal — the call proceeds and returns a (non-null) list, which on
a reachable state with at least one tip and `maxHashes > 0` is non-empty. -/
theorem locateBlocks_gate (mt : Block) (bd : BlockDAG) (gs : GraphState) (maxH : Nat) :
    (gs.IsExcellent (getGraphState mt bd) = true → locateBlocks mt bd gs maxH = none) ∧
    (gs.IsExcellent (getGraphState mt bd) = false →
      ∃ l, locateBlocks mt bd gs maxH = some l) ∧
    (Inv bd → gs = getGraphState mt bd → bd.tips ≠ [] → 0 < maxH →
      ∃ l, locateBlocks mt bd gs maxH = some l ∧ l ≠ []) := by
  refine ⟨fun h => ?_, fun h => ?_, fun hinv heq htne hmax => ?_⟩
  · unfold locateBlocks
    rw [if_pos h]
  · unfold locateBlocks
    rw [if_neg (by simp [h])]
    exact ⟨_, rfl⟩
  · subst heq
    have hex := isExcellent_self (getGraphState mt bd)
    unfold locateBlocks
    rw [if_neg (by simp [hex])]
    refine ⟨_, rfl, ?_⟩
    have htipseq : (getGraphState mt bd).tips = bd.tips := getGraphState_tips_of_ne_nil htne
    have hskip : locateLoop bd.blocks (getGraphState mt bd).tips (locateFuel bd)
        bd.tips bd.tips = bd.tips :=
      locateLoop_skip _ _ _ (fun x hx => htipseq ▸ hx)
    have hall : ∀ x ∈ bd.tips, (mlookup bd.blocks x).isSome = true := by
      intro x hx
      rcases (hinv.tips_iff x).mp hx with ⟨bb, hbb, _⟩
      rw [hbb]; rfl
    have hslicelen : (locateSlice bd (getGraphState mt bd)).length = bd.tips.length := by
      unfold locateSlice
      rw [hskip]
      exact filterMap_length_of_all_isSome hall
    have hsortlen : (locateSorted bd (getGraphState mt bd)).length = bd.tips.length := by
      unfold locateSorted
      split
      · rw [List.length_insertionSort, hslicelen]
      · rw [hslicelen]
    have htlen : 0 < bd.tips.length := List.length_pos.mpr htne
    intro hc
    rw [List.map_eq_nil_iff] at hc
    have := congrArg List.length hc
    rw [List.length_take, hsortlen] at this
    simp only [List.length_nil] at this
    omega

theorem sorted_of_length_le_one {l : List Block} (h : l.length ≤ 1) :
    List.Sorted blockLe l := by
  match l with
  | [] => exact List.Pairwise.nil
  | [x] => exact List.pairwise_singleton _ x
  | x :: y :: rest => simp at h

/-- A successful lookup returns one of the stored blocks. -/
theorem mlookup_some_mem_values {m : List (Hash × Block)} {h : Hash} {b : Block}
    (hb : mlookup m h = some b) : b ∈ m.map Prod.snd := by
  induction m with
  | nil => exact Option.noConfusion hb
  | cons e rest ih =>
    rw [mlookup_cons] at hb
    simp only [List.map_cons, List.mem_cons]
    by_cases he : h = e.1
    · rw [if_pos he] at hb
      exact Or.inl (Option.some.inj hb).symm
    · rw [if_neg he] at hb
      exact Or.inr (ih hb)

/-- Every block in the sorted admitted slice is a stored block of the DAG. -/
theorem locateSorted_mem {bd : BlockDAG} {gs : GraphState} {b : Block}
    (hb : b ∈ locateSorted bd gs) : b ∈ bd.blocks.map Prod.snd := by
  have hslice : b ∈ locateSlice bd gs := by
    unfold locateSorted at hb
    by_cases hlen : (locateSlice bd gs).length ≥ 2
    · rw [if_pos hlen] at hb
      exact ((List.perm_insertionSort blockLe _).mem_iff).mp hb
    · rw [if_neg hlen] at hb
      exact hb
  unfold locateSlice at hslice
  rcases List.mem_filterMap.mp hslice with ⟨h, _, hh⟩
  exact mlookup_some_mem_values hh

/-- Claim C7: every list returned by `LocateBlocks` has length at most
`maxHashes` and lists the hashes of a sequence of stored blocks of the DAG
that is sorted ascending by (order, id); and in the two-tips fixture with a
peer whose only tip is genesis, the result is exactly the hashes of the two
non-genesis blocks in ascending (order, id) order. -/
theorem locateBlocks_sorted_bounded :
    (∀ (mt : Block) (bd : BlockDAG) (gs : GraphState) (maxH : Nat) (l : List Hash),
      locateBlocks mt bd gs maxH = some l →
        l.length ≤ maxH ∧ ∃ bl, List.Sorted blockLe bl ∧
          (∀ b ∈ bl, b ∈ bd.blocks.map Prod.snd) ∧ l = bl.map Block.hash) ∧
    locateBlocks gBlk st3 { tips := [1], layer := 0, total := 1, mainHeight := 0 } 10 =
      some [2, 3] := by
  constructor
  · intro mt bd gs maxH l hl
    unfold locateBlocks at hl
    by_cases he : gs.IsExcellent (getGraphState mt bd) = true
    · rw [if_pos he] at hl
      exact Option.noConfusion hl
    · rw [if_neg he] at hl
      have hl' := Option.some.inj hl
      constructor
      · rw [← hl', List.length_map, List.length_take]
        exact Nat.min_le_left _ _
      · refine ⟨(locateSorted bd gs).take maxH, ?_, ?_, hl'.symm⟩
        · have hsorted : List.Sorted blockLe (locateSorted bd gs) := by
            unfold locateSorted
            split
            · exact List.sorted_insertionSort blockLe _
            · rename_i hlen
              exact sorted_of_length_le_one (by omega)
          exact List.Pairwise.sublist (List.take_sublist _ _) hsorted
        · intro b hbmem
          exact locateSorted_mem ((List.take_sublist _ _).subset hbmem)
  · decide

/-- Witness for C7: the general bound and sortedness applied at the two-tips
fixture result `[2, 3]`. -/
theorem locateBlocks_sorted_bounded_witness :
    ([2, 3] : List Hash).length ≤ 10 ∧
      ∃ bl, List.Sorted blockLe bl ∧ (∀ b ∈ bl, b ∈ st3.blocks.map Prod.snd) ∧
        ([2, 3] : List Hash) = bl.map Block.hash :=
  locateBlocks_sorted_bounded.1 gBlk st3
    { tips := [1], layer := 0, total := 1, mainHeight := 0 } 10 [2, 3] (by decide)

/-- Witness for the amended C6 at the one-block fixture with the peer state
equal to our own. -/
theorem locateBlocks_gate_witness :
    (locateBlocks gBlk st1 (getGraphState gBlk st1) 10 = none → False) ∧
      ∃ l, locateBlocks gBlk st1 (getGraphState gBlk st1) 10 = some l ∧ l ≠ [] := by
  constructor
  · intro hc
    rcases (locateBlocks_gate gBlk st1 (getGraphState gBlk st1) 10).2.1 (by decide)
      with ⟨l, hl⟩
    rw [hc] at hl
    exact Option.noConfusion hl
  · exact (locateBlocks_gate gBlk st1 (getGraphState gBlk st1) 10).2.2
      (inv_runAdds instNone 0 [some gData]) rfl (by decide) (by decide)

theorem childPath_first_edge {m : List (Hash × Block)} {a d : Hash}
    (h : ChildPath m a d) : ∃ c, ChildEdge m a c := by
  induction h with
  | single e => exact ⟨_, e⟩
  | tail _ _ ih => exact ih

theorem childless_no_childpath {m : List (Hash × Block)} {h : Hash}
    (hc : ∀ bb, mlookup m h = some bb → bb.children = []) :
    ∀ d, ¬ChildPath m h d := by
  intro d hd
  rcases childPath_first_edge hd with ⟨c, bb, hbb, hcm⟩
  rw [hc bb hbb] at hcm
  exact List.not_mem_nil c hcm

/-- The `GetConfirmations` BFS returns 0 whenever neither the start block
nor any of its descendants is on the main chain: every dequeued block fails
the main-chain test, so the loop can only exit through the childless or
exhaustion returns, both 0. -/
theorem confLoop_zero (isOnMain : Hash → Bool) (m : List (Hash × Block)) (mainH : Nat)
    (hhash : ∀ k bb, mlookup m k = some bb → bb.hash = k)
    (start : Hash) (hm : isOnMain start = false)
    (hd : ∀ d, ChildPath m start d → isOnMain d = false) :
    ∀ (fuel : Nat) (queue : List Hash),
      (∀ x ∈ queue, x = start ∨ ChildPath m start x) →
      confLoop isOnMain m mainH fuel queue = 0 := by
  intro fuel
  induction fuel with
  | zero => intro queue _; rfl
  | succ n ih =>
    intro queue hq
    match queue with
    | [] => rfl
    | hh :: rest =>
      unfold confLoop
      match hcur : mlookup m hh with
      | none => simp [hcur]
      | some cur =>
        simp only [hcur]
        have hhh : cur.hash = hh := hhash hh cur hcur
        have hnm : isOnMain cur.hash = false := by
          rw [hhh]
          rcases hq hh (List.mem_cons_self hh rest) with rfl | hp
          · exact hm
          · exact hd hh hp
        rw [if_neg (by simp [hnm])]
        by_cases hce : cur.children.isEmpty
        · rw [if_pos hce]
        · rw [if_neg hce]
          refine ih (rest ++ cur.children) ?_
          intro x hx
          rcases List.mem_append.mp hx with hx | hx
          · exact hq x (List.mem_cons_of_mem hh hx)
          · right
            rcases hq hh (List.mem_cons_self hh rest) with rfl | hp
            · exact Relation.TransGen.single ⟨cur, hcur, hx⟩
            · exact Relation.TransGen.tail hp ⟨cur, hcur, hx⟩

/-- Claim C5 (counterexample): in the fixture, H(2) is not on the main chain
but has the main-chain descendant M(5); the claim's BFS answer (modelled by
`claimedConfirmations`, reaching M) is 1, yet `GetConfirmations` returns 0,
because the BFS dequeues the childless tip A(4) first and returns 0 on the
spot. -/
theorem getConfirmations_bfs_counterexample :
    getConfirmations isOnMainC5 mtC5 stC5 2 = 0 ∧
      claimedConfirmations isOnMainC5 mtC5 stC5 2 = 1 ∧
      ChildPath stC5.blocks 2 5 ∧ isOnMainC5 5 = true ∧ isOnMainC5 2 = false ∧
      (0 : Nat) ≠ 1 := by
  refine ⟨by decide, by decide, ?_, by decide, by decide, by decide⟩
  exact Relation.TransGen.single ⟨h2Blk, by decide, by decide⟩

/-- Claim C5 (amended): for every known hash h, if h is on the main chain,
`GetConfirmations(h)` equals `mainHeight − height(h)` (uint arithmetic); if
h is not on the main chain and has no children it equals 0; if neither h nor
any descendant of h is on the main chain it equals 0; but when h does have a
main-chain descendant the BFS may still return 0, because it answers 0 as
soon as it dequeues any childless non-main block (fixture: H(2) with
main-chain descendant M(5)). -/
theorem getConfirmations_cases :
    (∀ (isOnMain : Hash → Bool) (mainTip : Block) (bd : BlockDAG) (h : Hash) (blk : Block),
      getBlock bd h = some blk → isOnMain h = true →
        getConfirmations isOnMain mainTip bd h = u64sub mainTip.height blk.height) ∧
    (∀ (isOnMain : Hash → Bool) (mainTip : Block) (bd : BlockDAG) (h : Hash) (blk : Block),
      getBlock bd h = some blk → isOnMain h = false → blk.children = [] →
        getConfirmations isOnMain mainTip bd h = 0) ∧
    (∀ (isOnMain : Hash → Bool) (mainTip : Block) (bd : BlockDAG) (h : Hash),
      Inv bd → isOnMain h = false →
      (∀ d, ChildPath bd.blocks h d → isOnMain d = false) →
        getConfirmations isOnMain mainTip bd h = 0) ∧
    (getConfirmations isOnMainC5 mtC5 stC5 2 = 0 ∧
      ChildPath stC5.blocks 2 5 ∧ isOnMainC5 5 = true) := by
  refine ⟨?_, ?_, ?_, by decide, ?_, by decide⟩
  · intro isOnMain mainTip bd h blk hblk hm
    simp [getConfirmations, hblk, hm]
  · intro isOnMain mainTip bd h blk hblk hm hc
    simp [getConfirmations, hblk, hm, hc]
  · intro isOnMain mainTip bd h hinv hm hd
    match hblk : getBlock bd h with
    | none => simp [getConfirmations, hblk]
    | some blk =>
      by_cases hc : blk.children.isEmpty
      · simp [getConfirmations, hblk, hm, hc]
      · simp only [getConfirmations, hblk]
        rw [if_neg (by simp [hm]), if_pos (by simp [hc])]
        exact confLoop_zero isOnMain bd.blocks mainTip.height hinv.hash_eq h hm hd
          (confFuel bd) [h] (by intro x hx; left; simpa using hx)
  · exact Relation.TransGen.single ⟨h2Blk, by decide, by decide⟩

/-- Witness for the amended C5: the three general cases applied in the
fixture — M(5) on main gives `mainHeight − height`, the childless non-main
A(4) gives 0, and A(4), which has no main-chain descendants, gives 0 through
the BFS case as well. -/
theorem getConfirmations_cases_witness :
    getConfirmations isOnMainC5 mtC5 stC5 5 = u64sub mtC5.height 0 ∧
      getConfirmations isOnMainC5 mtC5 stC5 4 = 0 := by
  constructor
  · exact getConfirmations_cases.1 isOnMainC5 mtC5 stC5 5 mtC5 (by decide) (by decide)
  · refine getConfirmations_cases.2.2.1 isOnMainC5 mtC5 stC5 4
      (inv_runAdds instNone 0 [some gData, some aData, some bData, some a4Data, some mData])
      (by decide) ?_
    intro d hd
    exact absurd hd (childless_no_childpath (fun bb hbb => by
      rw [show mlookup stC5.blocks 4 = some
        { id := 3, hash := 4, parents := [2], children := [], weight := 1, layer := 2,
          order := 0, height := 0, mainParent := some 2 } from by decide] at hbb
      rw [← Option.some.inj hbb]) d)

theorem foldl_invariant {α β : Type} {P : β → Prop} {step : β → α → β} {l : List α}
    (hstep : ∀ acc k, k ∈ l → P acc → P (step acc k)) :
    ∀ {acc}, P acc → P (l.foldl step acc) := by
  induction l with
  | nil => intro acc h; exact h
  | cons x rest ih =>
    intro acc h
    exact ih (fun acc' k hk h' => hstep acc' k (List.mem_cons_of_mem x hk) h')
      (hstep acc x (List.mem_cons_self x rest) h)

theorem filter_length_mono {α : Type} {l : List α} {p q : α → Bool}
    (h : ∀ x ∈ l, p x = true → q x = true) :
    (l.filter p).length ≤ (l.filter q).length := by
  induction l with
  | nil => exact Nat.le_refl _
  | cons x rest ih =>
    have ih' := ih (fun y hy => h y (List.mem_cons_of_mem x hy))
    rw [List.filter_cons, List.filter_cons]
    cases hp : p x
    · cases hq : q x
      · simpa using ih'
      · simp only [if_pos rfl]
        exact Nat.le_trans ih' (by simp)
    · rw [h x (List.mem_cons_self x rest) hp]
      simpa using ih'

theorem filter_length_lt {α : Type} [DecidableEq α] {l : List α} {p q : α → Bool} {k : α}
    (himp : ∀ x ∈ l, p x = true → q x = true)
    (hk : k ∈ l) (hpk : p k = false) (hqk : q k = true) :
    (l.filter p).length < (l.filter q).length := by
  induction l with
  | nil => cases hk
  | cons x rest ih =>
    rw [List.filter_cons, List.filter_cons]
    by_cases hx : x = k
    · subst hx
      rw [hpk, hqk]
      simp only [if_pos rfl]
      exact Nat.lt_succ_of_le
        (filter_length_mono (fun y hy => himp y (List.mem_cons_of_mem x hy)))
    · have hk' : k ∈ rest := by
        rcases List.mem_cons.mp hk with h | h
        · exact absurd h.symm hx
        · exact h
      have ih' := ih (fun y hy => himp y (List.mem_cons_of_mem x hy)) hk'
      cases hp : p x
      · cases hq : q x
        · simpa using ih'
        · simp only [if_pos rfl]
          exact Nat.lt_trans ih' (by simp [Nat.lt_succ_self])
      · rw [himp x (List.mem_cons_self x rest) hp]
        simpa using ih'

theorem keysNotIn_mono {m : List (Hash × Block)} {fs fs' : List Hash}
    (h : ∀ x ∈ fs, x ∈ fs') : keysNotIn m fs' ≤ keysNotIn m fs := by
  refine filter_length_mono (fun x _ hx => ?_)
  simp only [Bool.not_eq_true', decide_eq_false_iff_not] at hx ⊢
  exact fun hc => hx (h x hc)

theorem mlookup_some_mem_keys {m : List (Hash × Block)} {k : Hash} {bb : Block}
    (h : mlookup m k = some bb) : k ∈ m.map Prod.fst := by
  induction m with
  | nil => exact Option.noConfusion h
  | cons e rest ih =>
    rw [mlookup_cons] at h
    by_cases he : k = e.1
    · simp [he]
    · rw [if_neg he] at h
      exact List.mem_cons_of_mem _ (ih h)

theorem keysNotIn_lt {m : List (Hash × Block)} {fs : List Hash} {k : Hash}
    (hkey : k ∈ m.map Prod.fst) (hk : k ∉ fs) :
    keysNotIn m (fs ++ [k]) < keysNotIn m fs := by
  refine filter_length_lt (fun x _ hx => ?_) hkey ?_ ?_
  · simp only [Bool.not_eq_true', decide_eq_false_iff_not] at hx ⊢
    intro hc
    exact hx (List.mem_append.mpr (Or.inl hc))
  · simp
  · simp [hk]

theorem keysNotIn_nil (m : List (Hash × Block)) : keysNotIn m [] = m.length := by
  unfold keysNotIn
  rw [show (fun x => !(decide (x ∈ ([] : List Hash)))) = fun _ => true by
    funext x; simp]
  rw [List.filter_true, List.length_map]

theorem dfs_sound (m : List (Hash × Block))
    (hhash : ∀ k bb, mlookup m k = some bb → bb.hash = k) :
    ∀ (fuel : Nat) (fs : List Hash) (b : Block), mlookup m b.hash = some b →
      ∀ x ∈ getFutureSetAux m fuel fs b, x ∈ fs ∨ ChildPath m b.hash x := by
  intro fuel
  induction fuel with
  | zero => intro fs b _ x hx; exact Or.inl hx
  | succ n ih =>
    intro fs b hb x hx
    rw [getFutureSetAux] at hx
    refine @foldl_invariant _ _
      (fun fs' => ∀ y ∈ fs', y ∈ fs ∨ ChildPath m b.hash y) _ _
      ?_ _ (fun y hy => Or.inl hy) x hx
    intro acc k hk hacc y hy
    by_cases hkm : k ∈ acc
    · rw [if_pos hkm] at hy
      exact hacc y hy
    · rw [if_neg hkm] at hy
      have hedge : ChildEdge m b.hash k := ⟨b, hb, hk⟩
      match hlk : mlookup m k with
      | none =>
        rw [hlk] at hy
        rcases List.mem_append.mp hy with hy | hy
        · exact hacc y hy
        · right
          rw [List.mem_singleton.mp hy]
          exact Relation.TransGen.single hedge
      | some cb =>
        rw [hlk] at hy
        have hcb : mlookup m cb.hash = some cb := by rw [hhash k cb hlk]; exact hlk
        rcases ih (acc ++ [k]) cb hcb y hy with hy' | hy'
        · rcases List.mem_append.mp hy' with hy'' | hy''
          · exact hacc y hy''
          · right
            rw [List.mem_singleton.mp hy'']
            exact Relation.TransGen.single hedge
        · right
          rw [hhash k cb hlk] at hy'
          exact Relation.TransGen.trans (Relation.TransGen.single hedge) hy'

theorem dfs_main (m : List (Hash × Block))
    (hhash : ∀ k bb, mlookup m k = some bb → bb.hash = k) :
    ∀ (fuel : Nat) (fs : List Hash) (b : Block), mlookup m b.hash = some b →
      keysNotIn m fs < fuel →
      (∀ x ∈ fs, x ∈ getFutureSetAux m fuel fs b) ∧
      (∀ k ∈ b.children, k ∈ getFutureSetAux m fuel fs b) ∧
      DfsClosed m fs (getFutureSetAux m fuel fs b) := by
  intro fuel
  induction fuel with
  | zero => intro fs b _ hcnt; omega
  | succ n ih =>
    intro fs b hb hcnt
    rw [getFutureSetAux]
    have inner : ∀ (cs : List Hash), (∀ k ∈ cs, ChildEdge m b.hash k → True) → ∀ (fs' : List Hash),
        keysNotIn m fs' < n + 1 →
        (∀ x ∈ fs', x ∈ cs.foldl (fun fs k =>
            if k ∈ fs then fs
            else match mlookup m k with
              | some cb => getFutureSetAux m n (fs ++ [k]) cb
              | none => fs ++ [k]) fs') ∧
        (∀ k ∈ cs, k ∈ cs.foldl (fun fs k =>
            if k ∈ fs then fs
            else match mlookup m k with
              | some cb => getFutureSetAux m n (fs ++ [k]) cb
              | none => fs ++ [k]) fs') ∧
        DfsClosed m fs' (cs.foldl (fun fs k =>
            if k ∈ fs then fs
            else match mlookup m k with
              | some cb => getFutureSetAux m n (fs ++ [k]) cb
              | none => fs ++ [k]) fs') := by
      intro cs
      induction cs with
      | nil =>
        intro _ fs' _
        exact ⟨fun x hx => hx, fun k hk => absurd hk (List.not_mem_nil k),
          fun y hy => Or.inl hy⟩
      | cons k cs' ihc =>
        intro _ fs' hcnt'
        rw [List.foldl_cons]
        by_cases hk : k ∈ fs'
        · rw [if_pos hk]
          rcases ihc (fun _ _ _ => trivial) fs' hcnt' with ⟨h1, h2, h3⟩
          exact ⟨h1, fun k' hk' => by
            rcases List.mem_cons.mp hk' with rfl | hk''
            · exact h1 k' hk
            · exact h2 k' hk'', h3⟩
        · rw [if_neg hk]
          match hlk : mlookup m k with
          | none =>
            have hsub : ∀ x ∈ fs', x ∈ fs' ++ [k] :=
              fun x hx => List.mem_append.mpr (Or.inl hx)
            have hcnt1 : keysNotIn m (fs' ++ [k]) < n + 1 :=
              Nat.lt_of_le_of_lt (keysNotIn_mono hsub) hcnt'
            rcases ihc (fun _ _ _ => trivial) (fs' ++ [k]) hcnt1 with ⟨h1, h2, h3⟩
            refine ⟨fun x hx => h1 x (hsub x hx), ?_, ?_⟩
            · intro k' hk'
              rcases List.mem_cons.mp hk' with rfl | hk''
              · exact h1 k' (List.mem_append.mpr (Or.inr (by simp)))
              · exact h2 k' hk''
            · intro y hy
              rcases h3 y hy with hy' | hy'
              · rcases List.mem_append.mp hy' with hy'' | hy''
                · exact Or.inl hy''
                · right
                  rw [List.mem_singleton.mp hy'']
                  rintro c ⟨node, hnode, _⟩
                  rw [hlk] at hnode
                  exact Option.noConfusion hnode
              · exact Or.inr hy'
          | some cb =>
            have hcb : mlookup m cb.hash = some cb := by rw [hhash k cb hlk]; exact hlk
            have hkey : k ∈ m.map Prod.fst := mlookup_some_mem_keys hlk
            have hdrop : keysNotIn m (fs' ++ [k]) < keysNotIn m fs' := keysNotIn_lt hkey hk
            have hltn : keysNotIn m (fs' ++ [k]) < n := by omega
            rcases ih (fs' ++ [k]) cb hcb hltn with ⟨hr1, hr2, hr3⟩
            have hsub1 : ∀ x ∈ fs', x ∈ getFutureSetAux m n (fs' ++ [k]) cb :=
              fun x hx => hr1 x (List.mem_append.mpr (Or.inl hx))
            have hcnt1 : keysNotIn m (getFutureSetAux m n (fs' ++ [k]) cb) < n + 1 :=
              Nat.lt_of_le_of_lt (keysNotIn_mono hsub1) hcnt'
            rcases ihc (fun _ _ _ => trivial) (getFutureSetAux m n (fs' ++ [k]) cb) hcnt1
              with ⟨h1, h2, h3⟩
            refine ⟨fun x hx => h1 x (hsub1 x hx), ?_, ?_⟩
            · intro k' hk'
              rcases List.mem_cons.mp hk' with rfl | hk''
              · exact h1 k' (hr1 k' (List.mem_append.mpr (Or.inr (by simp))))
              · exact h2 k' hk''
            · intro y hy
              rcases h3 y hy with hy' | hy'
              · rcases hr3 y hy' with hy'' | hy''
                · rcases List.mem_append.mp hy'' with hy3 | hy3
                  · exact Or.inl hy3
                  · right
                    rw [List.mem_singleton.mp hy3]
                    rintro c ⟨node, hnode, hcm⟩
                    rw [hlk] at hnode
                    rw [← Option.some.inj hnode] at hcm
                    exact h1 c (hr2 c hcm)
                · exact Or.inr (fun c hc => h1 c (hy'' c hc))
              · exact Or.inr hy'
    exact inner b.children (fun _ _ _ => trivial) fs hcnt

theorem closed_complete {m : List (Hash × Block)} {R : List Hash} {b : Block}
    (hb : mlookup m b.hash = some b) (hcl : DfsClosed m [] R)
    (hch : ∀ k ∈ b.children, k ∈ R) :
    ∀ x, ChildPath m b.hash x → x ∈ R := by
  intro x hp
  induction hp with
  | single e =>
    rcases e with ⟨node, hn, hc⟩
    rw [hb] at hn
    rw [← Option.some.inj hn] at hc
    exact hch _ hc
  | tail p e ih =>
    rcases hcl _ ih with hy | hy
    · exact absurd hy (List.not_mem_nil _)
    · exact hy _ e

/-- `GetFutureSet` computes exactly the strict descendants of `b`. -/
theorem futureSet_correct (bd : BlockDAG) (hinv : Inv bd) (b : Block)
    (hb : mlookup bd.blocks b.hash = some b) :
    ∀ k, k ∈ getFutureSet bd b ↔ ChildPath bd.blocks b.hash k := by
  intro k
  constructor
  · intro hk
    rcases dfs_sound bd.blocks hinv.hash_eq (bd.blockTotal + 1) [] b hb k hk with h | h
    · exact absurd h (List.not_mem_nil k)
    · exact h
  · intro hk
    have hcnt : keysNotIn bd.blocks [] < bd.blockTotal + 1 := by
      rw [keysNotIn_nil, ← hinv.total_len]
      exact Nat.lt_succ_self _
    rcases dfs_main bd.blocks hinv.hash_eq (bd.blockTotal + 1) [] b hb hcnt with ⟨_, h2, h3⟩
    exact closed_complete hb h3 h2 k hk

theorem edge_id_lt {bd : BlockDAG} (hinv : Inv bd) {x y : Hash}
    (e : ChildEdge bd.blocks x y) : idOfD bd.blocks x < idOfD bd.blocks y := by
  rcases e with ⟨bx, hbx, hy⟩
  rcases Option.isSome_iff_exists.mp (hinv.children_some x bx y hbx hy) with ⟨yb, hyb⟩
  have hpar : x ∈ yb.parents := hinv.child_to_parent x bx y yb hbx hy hyb
  have hid := hinv.parent_id_lt y yb x bx hyb hpar hbx
  unfold idOfD
  rw [hbx, hyb]
  simpa using hid

theorem path_id_lt {bd : BlockDAG} (hinv : Inv bd) {x y : Hash}
    (p : ChildPath bd.blocks x y) : idOfD bd.blocks x < idOfD bd.blocks y := by
  induction p with
  | single e => exact edge_id_lt hinv e
  | tail _ e ih => exact Nat.lt_trans ih (edge_id_lt hinv e)

theorem path_asymm {bd : BlockDAG} (hinv : Inv bd) {x y : Hash}
    (p : ChildPath bd.blocks x y) (q : ChildPath bd.blocks y x) : False := by
  have h1 := path_id_lt hinv p
  have h2 := path_id_lt hinv q
  omega

theorem parent_layer_lt {bd : BlockDAG} (hinv : Inv bd) {x p : Hash} {nodex np : Block}
    (hx : mlookup bd.blocks x = some nodex) (hp : p ∈ nodex.parents)
    (hnp : mlookup bd.blocks p = some np) : np.layer < nodex.layer := by
  have hne : nodex.parents ≠ [] := List.ne_nil_of_mem hp
  have hrec := hinv.layer_rec x nodex hx hne
  have hle : layerOfD bd.blocks p ≤ maxLayerIn bd.blocks nodex.parents := le_foldl_max hp
  have hlp : layerOfD bd.blocks p = np.layer := by unfold layerOfD; rw [hnp]; rfl
  omega

theorem good_children {bd : BlockDAG} (hinv : Inv bd) {bHash x c : Hash}
    (hg : GoodNode bd.blocks bHash x) (e : ChildEdge bd.blocks x c) :
    GoodNode bd.blocks bHash c := by
  obtain ⟨hpres, hxb, hnp⟩ := hg
  rcases e with ⟨nodex, hx, hc⟩
  refine ⟨hinv.children_some x nodex c hx hc, ?_, ?_⟩
  · rintro rfl
    exact hnp (Relation.TransGen.single ⟨nodex, hx, hc⟩)
  · intro hp
    exact hnp (Relation.TransGen.trans (Relation.TransGen.single ⟨nodex, hx, hc⟩) hp)

theorem childPath_head {m : List (Hash × Block)} {a d : Hash} (h : ChildPath m a d) :
    ∃ c, ChildEdge m a c ∧ (c = d ∨ ChildPath m c d) := by
  induction h with
  | single e => exact ⟨_, e, Or.inl rfl⟩
  | tail _ e ih =>
    rcases ih with ⟨c, e1, rest⟩
    refine ⟨c, e1, Or.inr ?_⟩
    rcases rest with rfl | p'
    · exact Relation.TransGen.single e
    · exact Relation.TransGen.tail p' e

theorem isVirtualTip_iff {bHash : Hash} {F ac children : List Hash} :
    isVirtualTip bHash F ac children = true ↔
      ∀ k ∈ children, k ≠ bHash ∧ (k ∈ F ∨ k ∈ ac) := by
  unfold isVirtualTip
  rw [List.all_eq_true]
  constructor
  · intro h k hk
    have := h k hk
    by_cases h1 : k = bHash
    · rw [if_pos h1] at this; exact absurd this (by simp)
    · rw [if_neg h1] at this
      by_cases h2 : k ∈ F ∨ k ∈ ac
      · exact ⟨h1, h2⟩
      · rw [if_neg h2] at this; exact absurd this (by simp)
  · intro h k hk
    rcases h k hk with ⟨h1, h2⟩
    rw [if_neg h1, if_pos h2]

theorem needRecTest_true_cases {bHash : Hash} {F ac children : List Hash}
    (h : needRecTest bHash F ac children = true) :
    children = [] ∨ ∀ k ∈ children, k ≠ bHash ∧ (k ∈ F ∨ k ∈ ac) := by
  unfold needRecTest at h
  by_cases hc : children.isEmpty
  · exact Or.inl (List.isEmpty_iff.mp hc)
  · rw [if_neg hc] at h
    exact Or.inr (isVirtualTip_iff.mp h)

theorem needRecTest_nil {bHash : Hash} {F ac : List Hash} :
    needRecTest bHash F ac [] = true := rfl

theorem hsAdd_prefix {s : List Hash} {h : Hash} : s <+: hsAdd s h := by
  unfold hsAdd
  split
  · exact List.prefix_rfl
  · exact List.prefix_append s [h]

theorem foldl_prefix_mono {step : List Hash → Hash → List Hash}
    (hstep : ∀ ac y, ac <+: step ac y) :
    ∀ (l : List Hash) (acc : List Hash), acc <+: l.foldl step acc := by
  intro l
  induction l with
  | nil => intro acc; exact List.prefix_rfl
  | cons y rest ih => intro acc; exact (hstep acc y).trans (ih (step acc y))

theorem foldl_position {step : List Hash → Hash → List Hash}
    (hstep : ∀ ac y, ac <+: step ac y) :
    ∀ (l : List Hash) (acc : List Hash) (x : Hash), x ∈ l →
      ∃ γ, acc <+: γ ∧ step γ x <+: l.foldl step acc := by
  intro l
  induction l with
  | nil => intro acc x hx; cases hx
  | cons y rest ih =>
    intro acc x hx
    rcases List.mem_cons.mp hx with rfl | hx'
    · exact ⟨acc, List.prefix_rfl, foldl_prefix_mono hstep rest (step acc x)⟩
    · rcases ih (step acc y) x hx' with ⟨γ, h1, h2⟩
      exact ⟨γ, (hstep acc y).trans h1, h2⟩

theorem rec_pre (m : List (Hash × Block)) (bHash : Hash) (F : List Hash) :
    ∀ (fuel : Nat) (ac : List Hash) (h : Hash), ac <+: recAnticone m bHash F fuel ac h := by
  intro fuel
  induction fuel with
  | zero => intro ac h; exact List.prefix_rfl
  | succ n ih =>
    intro ac h
    rw [recAnticone]
    by_cases hb : h = bHash
    · rw [if_pos hb]
    · rw [if_neg hb]
      match hlk : mlookup m h with
      | none => exact List.prefix_rfl
      | some node =>
        dsimp only
        by_cases ht : needRecTest bHash F ac node.children = true
        · rw [if_pos ht]
          have hpre : ac <+: (if h ∈ F then ac else hsAdd ac h) := by
            split
            · exact List.prefix_rfl
            · exact hsAdd_prefix
          exact hpre.trans (foldl_prefix_mono (fun ac' y => ih ac' y) _ _)
        · rw [if_neg ht]

theorem rec_sound {bd : BlockDAG} (hinv : Inv bd) {bHash : Hash} {F : List Hash}
    (hF : ∀ k, k ∈ F ↔ ChildPath bd.blocks bHash k) :
    ∀ (fuel : Nat) (ac : List Hash) (h : Hash),
      (∀ y ∈ ac, AntiNode bd.blocks bHash y) →
      ∀ y ∈ recAnticone bd.blocks bHash F fuel ac h, AntiNode bd.blocks bHash y := by
  intro fuel
  induction fuel with
  | zero => intro ac h hac; exact hac
  | succ n ih =>
    intro ac h hac y hy
    rw [recAnticone] at hy
    by_cases hb : h = bHash
    · rw [if_pos hb] at hy; exact hac y hy
    · rw [if_neg hb] at hy
      match hlk : mlookup bd.blocks h with
      | none => rw [hlk] at hy; exact hac y hy
      | some node =>
        rw [hlk] at hy
        dsimp only at hy
        by_cases ht : needRecTest bHash F ac node.children = true
        · rw [if_pos ht] at hy
          have hac' : ∀ z ∈ (if h ∈ F then ac else hsAdd ac h),
              AntiNode bd.blocks bHash z := by
            by_cases hf : h ∈ F
            · rw [if_pos hf]; exact hac
            · rw [if_neg hf]
              intro z hz
              rcases mem_hsAdd.mp hz with hz' | rfl
              · exact hac z hz'
              · refine ⟨⟨by rw [hlk]; rfl, hb, ?_⟩, fun hdesc => hf ((hF z).mpr hdesc)⟩
                intro hdesc
                rcases childPath_head hdesc with ⟨c, ⟨node', hn', hcm⟩, rest⟩
                rw [hlk] at hn'
                rw [← Option.some.inj hn'] at hcm
                rcases needRecTest_true_cases ht with hnil | hall
                · rw [hnil] at hcm; exact List.not_mem_nil c hcm
                · rcases hall c hcm with ⟨hcb, hcf⟩
                  have hcdesc : ChildPath bd.blocks c bHash := by
                    rcases rest with rfl | p'
                    · exact absurd rfl hcb
                    · exact p'
                  rcases hcf with hcf | hcf
                  · exact path_asymm hinv ((hF c).mp hcf) hcdesc
                  · exact (hac c hcf).1.2.2 hcdesc
          exact @foldl_invariant _ _
            (fun ac'' => ∀ z ∈ ac'', AntiNode bd.blocks bHash z) _ _
            (fun acc k _ hacc => ih acc k hacc) _ hac' y hy
        · rw [if_neg ht] at hy; exact hac y hy

/-- Processing a visited node whose test passes: the node enters the final
anticone (unless it lies in the future set), and every one of its parents
receives a visit whose accumulator extends this one and already contains the
node. -/
theorem visit_step {bd : BlockDAG} (hinv : Inv bd) {bHash : Hash} {F A : List Hash}
    {fuel : Nat} {γ : List Hash} {x : Hash} {nodex : Block}
    (hv : GoodVisit bd.blocks bHash F A fuel γ x)
    (hxb : x ≠ bHash) (hx : mlookup bd.blocks x = some nodex)
    (ht : needRecTest bHash F γ nodex.children = true) :
    (x ∉ F → x ∈ A) ∧
    ∀ p ∈ nodex.parents, ∃ fuel' γ', GoodVisit bd.blocks bHash F A fuel' γ' p ∧
      (x ∉ F → x ∈ γ') := by
  obtain ⟨hfuel, hpre, hres⟩ := hv
  have hlx : layerOfD bd.blocks x = nodex.layer := by unfold layerOfD; rw [hx]; rfl
  obtain ⟨f, rfl⟩ : ∃ f, fuel = f + 1 := ⟨fuel - 1, by omega⟩
  rw [recAnticone, if_neg hxb, hx] at hres
  dsimp only at hres
  rw [if_pos ht] at hres
  have hacsub : ∀ z ∈ (if x ∈ F then γ else hsAdd γ x),
      z ∈ nodex.parents.foldl
        (fun ac k => recAnticone bd.blocks bHash F f ac k)
        (if x ∈ F then γ else hsAdd γ x) :=
    fun z hz =>
      (foldl_prefix_mono (fun ac y => rec_pre bd.blocks bHash F f ac y) _ _).subset hz
  constructor
  · intro hxF
    refine hres.subset (hacsub x ?_)
    rw [if_neg hxF]
    exact hsAdd_self_mem
  · intro p hp
    rcases Option.isSome_iff_exists.mp (hinv.parents_some x nodex p hx hp) with ⟨np, hnp⟩
    have hlayer : np.layer < nodex.layer := parent_layer_lt hinv hx hp hnp
    rcases foldl_position (fun ac y => rec_pre bd.blocks bHash F f ac y)
      nodex.parents (if x ∈ F then γ else hsAdd γ x) p hp with ⟨γ', h1, h2⟩
    have hγ'A : γ' <+: A :=
      ((rec_pre bd.blocks bHash F f γ' p).trans h2).trans hres
    refine ⟨f, γ', ⟨?_, hγ'A, h2.trans hres⟩, ?_⟩
    · have hlp : layerOfD bd.blocks p = np.layer := by unfold layerOfD; rw [hnp]; rfl
      omega
    · intro hxF
      refine h1.subset ?_
      rw [if_neg hxF]
      exact hsAdd_self_mem

/-- Every tip receives a visit while the tip fold computes the anticone. -/
theorem tip_visit {bd : BlockDAG} (hinv : Inv bd) {bHash : Hash} {F : List Hash}
    {t : Hash} (ht : t ∈ bd.tips) :
    ∃ γ, GoodVisit bd.blocks bHash F
      (bd.tips.foldl
        (fun ac k => recAnticone bd.blocks bHash F (bd.blockTotal + 1) ac k) [])
      (bd.blockTotal + 1) γ t := by
  rcases (hinv.tips_iff t).mp ht with ⟨tb, htb, _⟩
  have hl1 : tb.layer ≤ tb.id := hinv.layer_le_id t tb htb
  have hl2 : tb.id < bd.blockTotal := hinv.id_lt_total t tb htb
  have hlt : layerOfD bd.blocks t = tb.layer := by unfold layerOfD; rw [htb]; rfl
  rcases foldl_position
    (fun ac y => rec_pre bd.blocks bHash F (bd.blockTotal + 1) ac y)
    bd.tips [] t ht with ⟨γ, _, h2⟩
  refine ⟨γ, ?_, ?_, h2⟩
  · omega
  · exact (rec_pre bd.blocks bHash F (bd.blockTotal + 1) γ t).trans h2

/-- From a family of prefixes of `A`, one per element of `S`, a single
prefix covering all of `S` can be chosen (prefixes of a common list are
totally ordered). -/
theorem exists_covering {A : List Hash} {P : Nat → List Hash → Prop} :
    ∀ (S : List Hash), S ≠ [] →
      (∀ c ∈ S, ∃ fuel γ, P fuel γ ∧ c ∈ γ ∧ γ <+: A) →
      ∃ fuel γ, P fuel γ ∧ γ <+: A ∧ ∀ c ∈ S, c ∈ γ := by
  intro S
  induction S with
  | nil => intro h; exact absurd rfl h
  | cons c S' ih =>
    intro _ hall
    by_cases hS' : S' = []
    · rcases hall c (List.mem_cons_self c S') with ⟨fuel, γ, hP, hc, hpre⟩
      refine ⟨fuel, γ, hP, hpre, ?_⟩
      intro c' hc'
      rw [hS'] at hc'
      rw [List.mem_singleton.mp hc']
      exact hc
    · rcases ih hS' (fun c' hc' => hall c' (List.mem_cons_of_mem c hc'))
        with ⟨fuel₁, γ₁, hP₁, hpre₁, hcov⟩
      rcases hall c (List.mem_cons_self c S') with ⟨fuel₂, γ₂, hP₂, hc₂, hpre₂⟩
      rcases List.prefix_or_prefix_of_prefix hpre₁ hpre₂ with h | h
      · refine ⟨fuel₂, γ₂, hP₂, hpre₂, ?_⟩
        intro c' hc'
        rcases List.mem_cons.mp hc' with rfl | hc''
        · exact hc₂
        · exact h.subset (hcov c' hc'')
      · refine ⟨fuel₁, γ₁, hP₁, hpre₁, ?_⟩
        intro c' hc'
        rcases List.mem_cons.mp hc' with rfl | hc''
        · exact h.subset hc₂
        · exact hcov c' hc''

/-- Every block that is neither `b` nor an ancestor of `b` eventually
receives a visit whose test passes: downward induction on the layer — the
children deliver the visit, and a covering prefix contains every already
admitted child. -/
theorem good_visited {bd : BlockDAG} (hinv : Inv bd) {bHash : Hash} {F : List Hash} :
    ∀ x nodex, mlookup bd.blocks x = some nodex → GoodNode bd.blocks bHash x →
      ∃ fuel γ, GoodVisit bd.blocks bHash F
        (bd.tips.foldl
          (fun ac k => recAnticone bd.blocks bHash F (bd.blockTotal + 1) ac k) [])
        fuel γ x ∧
        needRecTest bHash F γ nodex.children = true := by
  suffices H : ∀ (meas : Nat) (x : Hash) (nodex : Block),
      bd.blockTotal - nodex.layer = meas →
      mlookup bd.blocks x = some nodex → GoodNode bd.blocks bHash x →
      ∃ fuel γ, GoodVisit bd.blocks bHash F
        (bd.tips.foldl
          (fun ac k => recAnticone bd.blocks bHash F (bd.blockTotal + 1) ac k) [])
        fuel γ x ∧ needRecTest bHash F γ nodex.children = true by
    intro x nodex hx hg
    exact H (bd.blockTotal - nodex.layer) x nodex rfl hx hg
  intro meas
  induction meas using Nat.strong_induction_on with
  | _ meas ih =>
    intro x nodex hmeas hx hgood
    by_cases hchild : nodex.children = []
    · have htip : x ∈ bd.tips := (hinv.tips_iff x).mpr ⟨nodex, hx, hchild⟩
      rcases @tip_visit bd hinv bHash F x htip with ⟨γ, hv⟩
      exact ⟨bd.blockTotal + 1, γ, hv, by rw [hchild]; exact needRecTest_nil⟩
    · have hdeliver : ∀ c ∈ nodex.children,
          ∃ fuel' γ', GoodVisit bd.blocks bHash F
            (bd.tips.foldl
              (fun ac k => recAnticone bd.blocks bHash F (bd.blockTotal + 1) ac k) [])
            fuel' γ' x ∧ (c ∉ F → c ∈ γ') := by
        intro c hc
        have hedge : ChildEdge bd.blocks x c := ⟨nodex, hx, hc⟩
        have hgc : GoodNode bd.blocks bHash c := good_children hinv hgood hedge
        rcases Option.isSome_iff_exists.mp hgc.1 with ⟨nodec, hnc⟩
        have hxpar : x ∈ nodec.parents := hinv.child_to_parent x nodex c nodec hx hc hnc
        have hlayer : nodex.layer < nodec.layer := parent_layer_lt hinv hnc hxpar hx
        have hcbound : nodec.layer ≤ nodec.id := hinv.layer_le_id c nodec hnc
        have hcid : nodec.id < bd.blockTotal := hinv.id_lt_total c nodec hnc
        rcases ih (bd.blockTotal - nodec.layer) (by omega) c nodec rfl hnc hgc
          with ⟨fuelc, γc, hvc, htc⟩
        rcases visit_step hinv hvc hgc.2.1 hnc htc with ⟨_, hpar⟩
        exact hpar x hxpar
      by_cases hallF : ∀ c ∈ nodex.children, c ∈ F
      · rcases List.exists_mem_of_ne_nil _ hchild with ⟨c₀, hc₀⟩
        rcases hdeliver c₀ hc₀ with ⟨fuel', γ', hv', _⟩
        refine ⟨fuel', γ', hv', ?_⟩
        unfold needRecTest
        rw [if_neg (by simpa [List.isEmpty_iff] using hchild)]
        refine isVirtualTip_iff.mpr (fun k hk => ?_)
        exact ⟨(good_children hinv hgood ⟨nodex, hx, hk⟩).2.1, Or.inl (hallF k hk)⟩
      · have hS : ∀ c ∈ nodex.children.filter (fun c => !(decide (c ∈ F))),
            ∃ fuel' γ', (GoodVisit bd.blocks bHash F
              (bd.tips.foldl
                (fun ac k => recAnticone bd.blocks bHash F (bd.blockTotal + 1) ac k) [])
              fuel' γ' x) ∧ c ∈ γ' ∧ γ' <+:
                (bd.tips.foldl
                  (fun ac k => recAnticone bd.blocks bHash F (bd.blockTotal + 1) ac k) []) := by
          intro c hc
          rcases List.mem_filter.mp hc with ⟨hcm, hcf⟩
          have hcf' : c ∉ F := by simpa using hcf
          rcases hdeliver c hcm with ⟨fuel', γ', hv', hmem⟩
          exact ⟨fuel', γ', hv', hmem hcf', hv'.2.1⟩
        have hSne : nodex.children.filter (fun c => !(decide (c ∈ F))) ≠ [] := by
          rcases not_forall.mp hallF with ⟨c, hc⟩
          rcases Classical.not_imp.mp hc with ⟨hcm, hcf⟩
          exact List.ne_nil_of_mem (List.mem_filter.mpr ⟨hcm, by simpa using hcf⟩)
        rcases exists_covering _ hSne hS with ⟨fuel', γ', hv', _, hcov⟩
        refine ⟨fuel', γ', hv', ?_⟩
        unfold needRecTest
        rw [if_neg (by simpa [List.isEmpty_iff] using hchild)]
        refine isVirtualTip_iff.mpr (fun k hk => ?_)
        refine ⟨(good_children hinv hgood ⟨nodex, hx, hk⟩).2.1, ?_⟩
        by_cases hkF : k ∈ F
        · exact Or.inl hkF
        · exact Or.inr (hcov k (List.mem_filter.mpr ⟨hk, by simpa using hkF⟩))

/-- `GetAnticone(b, nil)` computes exactly the blocks that are neither `b`
nor ancestors nor descendants of `b`. -/
theorem getAnticone_correct (bd : BlockDAG) (hinv : Inv bd) (b : Block)
    (hb : mlookup bd.blocks b.hash = some b) :
    ∀ k, k ∈ getAnticone bd b none ↔ AntiNode bd.blocks b.hash k := by
  have hFS := futureSet_correct bd hinv b hb
  have hA : getAnticone bd b none = bd.tips.foldl
      (fun ac k => recAnticone bd.blocks b.hash (getFutureSet bd b) (bd.blockTotal + 1) ac k)
      [] := rfl
  intro k
  constructor
  · intro hk
    rw [hA] at hk
    exact @foldl_invariant _ _
      (fun ac => ∀ y ∈ ac, AntiNode bd.blocks b.hash y) _ _
      (fun acc t _ hacc => rec_sound hinv hFS (bd.blockTotal + 1) acc t hacc) _
      (fun y hy => absurd hy (List.not_mem_nil y)) k hk
  · intro hanti
    rcases Option.isSome_iff_exists.mp hanti.1.1 with ⟨nodek, hnk⟩
    rcases @good_visited bd hinv b.hash (getFutureSet bd b) k nodek hnk hanti.1
      with ⟨fuel, γ, hv, htest⟩
    rcases visit_step hinv hv hanti.1.2.1 hnk htest with ⟨hadm, _⟩
    have hnotF : k ∉ getFutureSet bd b := fun hc => hanti.2 ((hFS k).mp hc)
    rw [hA]
    exact hadm hnotF

/-- Claim C4: for every block `b` of a reachable DAG, `GetFutureSet`
computes exactly the strict descendants of `b`, and `GetAnticone(b, nil)`
computes exactly the blocks that are neither ancestors nor descendants of
`b` and are not `b`: the anticone meets neither the future set nor the past
set, does not contain `b`, and together with the future set, the past set
and `{b}` it partitions the whole block set. -/
theorem anticone_partition (instAdd : Block → Option (List Hash)) (t : Int)
    (inputs : List (Option BlockData)) (b : Block)
    (hb : mlookup (runAdds instAdd (initDAG t) inputs).blocks b.hash = some b) :
    (∀ k, k ∈ getFutureSet (runAdds instAdd (initDAG t) inputs) b ↔
      ChildPath (runAdds instAdd (initDAG t) inputs).blocks b.hash k) ∧
    (∀ k, k ∈ getAnticone (runAdds instAdd (initDAG t) inputs) b none ↔
      ((mlookup (runAdds instAdd (initDAG t) inputs).blocks k).isSome = true ∧
        k ≠ b.hash ∧
        ¬ChildPath (runAdds instAdd (initDAG t) inputs).blocks b.hash k ∧
        ¬ChildPath (runAdds instAdd (initDAG t) inputs).blocks k b.hash)) ∧
    (∀ k ∈ getAnticone (runAdds instAdd (initDAG t) inputs) b none,
      k ∉ getFutureSet (runAdds instAdd (initDAG t) inputs) b) ∧
    (b.hash ∉ getAnticone (runAdds instAdd (initDAG t) inputs) b none) ∧
    (∀ k, ChildPath (runAdds instAdd (initDAG t) inputs).blocks k b.hash →
      k ∉ getAnticone (runAdds instAdd (initDAG t) inputs) b none) ∧
    (∀ k ∈ getFutureSet (runAdds instAdd (initDAG t) inputs) b,
      ¬ChildPath (runAdds instAdd (initDAG t) inputs).blocks k b.hash ∧ k ≠ b.hash) ∧
    (∀ k bk, mlookup (runAdds instAdd (initDAG t) inputs).blocks k = some bk →
      k = b.hash ∨ k ∈ getFutureSet (runAdds instAdd (initDAG t) inputs) b ∨
        ChildPath (runAdds instAdd (initDAG t) inputs).blocks k b.hash ∨
        k ∈ getAnticone (runAdds instAdd (initDAG t) inputs) b none) := by
  have hinv := inv_runAdds instAdd t inputs
  have hFS := futureSet_correct _ hinv b hb
  have hAC := getAnticone_correct _ hinv b hb
  have hACiff : ∀ k, k ∈ getAnticone (runAdds instAdd (initDAG t) inputs) b none ↔
      ((mlookup (runAdds instAdd (initDAG t) inputs).blocks k).isSome = true ∧
        k ≠ b.hash ∧
        ¬ChildPath (runAdds instAdd (initDAG t) inputs).blocks b.hash k ∧
        ¬ChildPath (runAdds instAdd (initDAG t) inputs).blocks k b.hash) := by
    intro k
    rw [hAC k]
    unfold AntiNode GoodNode
    constructor
    · rintro ⟨⟨h1, h2, h3⟩, h4⟩
      exact ⟨h1, h2, h4, h3⟩
    · rintro ⟨h1, h2, h3, h4⟩
      exact ⟨⟨h1, h2, h4⟩, h3⟩
  refine ⟨hFS, hACiff, ?_, ?_, ?_, ?_, ?_⟩
  · intro k hk hf
    exact ((hACiff k).mp hk).2.2.1 ((hFS k).mp hf)
  · intro hk
    exact ((hACiff b.hash).mp hk).2.1 rfl
  · intro k hpast hk
    exact ((hACiff k).mp hk).2.2.2 hpast
  · intro k hf
    have hdesc := (hFS k).mp hf
    constructor
    · intro hpast
      exact path_asymm hinv hdesc hpast
    · rintro rfl
      have := path_id_lt hinv hdesc
      omega
  · intro k bk hk
    by_cases h1 : k = b.hash
    · exact Or.inl h1
    · by_cases h2 : ChildPath (runAdds instAdd (initDAG t) inputs).blocks b.hash k
      · exact Or.inr (Or.inl ((hFS k).mpr h2))
      · by_cases h3 : ChildPath (runAdds instAdd (initDAG t) inputs).blocks k b.hash
        · exact Or.inr (Or.inr (Or.inl h3))
        · refine Or.inr (Or.inr (Or.inr ((hACiff k).mpr ⟨?_, h1, h2, h3⟩)))
          rw [hk]; rfl

/-- Witness for C4 at the two-tips fixture: the anticone of block 2 does not
contain 2 itself, is disjoint from its future set, and works out to exactly
`[3]`, the sibling tip. -/
theorem anticone_partition_witness :
    ablk.hash ∉ getAnticone st3 ablk none ∧
      (∀ k ∈ getAnticone st3 ablk none, k ∉ getFutureSet st3 ablk) ∧
      getAnticone st3 ablk none = [3] := by
  refine ⟨(anticone_partition instNone 0 [some gData, some aData, some bData] ablk
    (by decide)).2.2.2.1, ?_, by decide⟩
  exact (anticone_partition instNone 0 [some gData, some aData, some bData] ablk
    (by decide)).2.2.1

end QDag
